import Mathlib

/-!
Verification of the NTT engine (`ntt.py`, driver `usage.py`) against its
specification.

The Python source is shallowly embedded:

* Python `int` values are `Int` (or `Nat` where the source value is
  manifestly non-negative); Python `%` on a positive modulus agrees with
  `Int.emod` / `Nat.mod`.
* `os.urandom` draws are abstracted as an explicit list (or stream) of
  outcomes, universally quantified in the theorems, so "for every possible
  outcome of the entropy source" becomes a quantifier over that list.
* Python exceptions become explicit error results; the unbounded
  rejection-sampling loop of `secure_next_int` becomes a recursion over the
  finite list of available draws, with exhaustion as a separate outcome.
* Python list assignment `xs[i] = v` is `List.set`, guarded by the bounds
  check Python performs (an out-of-range assignment raises `IndexError`,
  embedded as `none`) wherever an out-of-range index is reachable.
-/

/-! ### Basic bit-level helpers (Python `int.bit_length`, bit-string reversal) -/

/-- Fuel-driven floor base-2 logarithm (structural recursion so that the kernel
can evaluate it on literals); `log2fuel fuel n` agrees with `Nat.log 2 n`
whenever `n ≤ fuel`. -/
def log2fuel : Nat → Nat → Nat
  | 0, _ => 0
  | fuel + 1, n => if 2 ≤ n then log2fuel fuel (n / 2) + 1 else 0

/-- Floor base-2 logarithm, `0` at `0`.  This models Python
`int(math.log(x, 2))` at the argument sizes arising in `ntt.py`
(small byte widths, where the float computation is exact). -/
def pyLog2 (n : Nat) : Nat := log2fuel n n

theorem log2fuel_eq_log (fuel n : Nat) (h : n ≤ fuel) : log2fuel fuel n = Nat.log 2 n := by
  induction fuel generalizing n with
  | zero =>
    have hn : n = 0 := by omega
    simp [log2fuel, hn]
  | succ fuel ih =>
    by_cases h2 : 2 ≤ n
    · have hdiv : n / 2 ≤ fuel := by
        have := Nat.div_lt_self (by omega : 0 < n) (by omega : 1 < 2)
        omega
      have hlogpos : 0 < Nat.log 2 n := Nat.log_pos (by omega) h2
      have hrec : Nat.log 2 (n / 2) = Nat.log 2 n - 1 := Nat.log_div_base 2 n
      simp only [log2fuel, if_pos h2, ih _ hdiv, hrec]
      omega
    · have : n < 2 := by omega
      simp [log2fuel, if_neg h2, Nat.log_of_lt this]

theorem pyLog2_eq_log (n : Nat) : pyLog2 n = Nat.log 2 n :=
  log2fuel_eq_log n n le_rfl

/-- Python `x.bit_length()`: number of bits needed to represent `x`, `0` for `0`. -/
def bitLen (x : Nat) : Nat := if x = 0 then 0 else pyLog2 x + 1

theorem bitLen_two_pow_sub_one (k : Nat) : bitLen (2 ^ (k + 1) - 1) = k + 1 := by
  have hpos : 2 ^ (k + 1) - 1 ≠ 0 := by
    have : 2 ≤ 2 ^ (k + 1) := Nat.one_lt_two_pow_iff.mpr (by omega)
    omega
  have hlog : Nat.log 2 (2 ^ (k + 1) - 1) = k := by
    apply Nat.log_eq_of_pow_le_of_lt_pow
    · have h1 : 2 ^ k < 2 ^ (k + 1) := Nat.pow_lt_pow_right (by omega) (by omega)
      omega
    · have : 1 ≤ 2 ^ (k + 1) := Nat.one_le_two_pow
      omega
  simp [bitLen, hpos, pyLog2_eq_log, hlog]

/-- Reversal of the low `w` bits of `i` (the value of the Python expression
`int(bin(i)[2:].zfill(w)[::-1], 2)` whenever `i < 2 ^ w`): the low bit of `i`
becomes the top (position `w - 1`) bit of the result. -/
def bitRev : Nat → Nat → Nat
  | 0, _ => 0
  | w + 1, i => bitRev w (i / 2) + (i % 2) * 2 ^ w

theorem bitRev_lt {w i : Nat} : bitRev w i < 2 ^ w := by
  induction w generalizing i with
  | zero => simp [bitRev]
  | succ w ih =>
    have h2 : (i % 2) * 2 ^ w ≤ 2 ^ w := by
      have : i % 2 ≤ 1 := by omega
      simpa using Nat.mul_le_mul_right (2 ^ w) this
    have := @ih (i / 2)
    simp only [bitRev, pow_succ]
    omega

theorem bitRev_zero (w : Nat) : bitRev w 0 = 0 := by
  induction w with
  | zero => rfl
  | succ w ih => simp [bitRev, ih]

/-- Reversing `w + 1` bits can also be computed by splitting off the top bit. -/
theorem bitRev_succ_high {w i : Nat} (h : i < 2 ^ (w + 1)) :
    bitRev (w + 1) i = 2 * bitRev w (i % 2 ^ w) + i / 2 ^ w := by
  induction w generalizing i with
  | zero =>
    simp only [bitRev, pow_zero, pow_one, bitRev_zero] at *
    omega
  | succ w ih =>
    have hhalf : i / 2 < 2 ^ (w + 1) := by
      have hp : 2 ^ (w + 1 + 1) = 2 ^ (w + 1) * 2 := by ring
      rw [hp] at h
      exact Nat.div_lt_of_lt_mul (by omega)
    have e1 : (i % 2 ^ (w + 1)) / 2 = (i / 2) % 2 ^ w := by
      rw [show (2 : Nat) ^ (w + 1) = 2 * 2 ^ w by ring, Nat.mod_mul_right_div_self]
    have e2 : (i % 2 ^ (w + 1)) % 2 = i % 2 :=
      Nat.mod_mod_of_dvd i (dvd_pow_self 2 (by omega))
    have e3 : i / 2 / 2 ^ w = i / 2 ^ (w + 1) := by
      rw [Nat.div_div_eq_div_mul]
      congr 1
      ring
    calc bitRev (w + 1 + 1) i
        = bitRev (w + 1) (i / 2) + (i % 2) * 2 ^ (w + 1) := rfl
      _ = 2 * bitRev w ((i / 2) % 2 ^ w) + i / 2 / 2 ^ w + (i % 2) * 2 ^ (w + 1) := by
          rw [ih hhalf]
      _ = 2 * (bitRev w ((i % 2 ^ (w + 1)) / 2) + ((i % 2 ^ (w + 1)) % 2) * 2 ^ w)
            + i / 2 ^ (w + 1) := by
          rw [e1, e2, e3]; ring
      _ = 2 * bitRev (w + 1) (i % 2 ^ (w + 1)) + i / 2 ^ (w + 1) := rfl

theorem bitRev_bitRev {w i : Nat} (h : i < 2 ^ w) : bitRev w (bitRev w i) = i := by
  induction w generalizing i with
  | zero =>
    have : i = 0 := by simpa using h
    simp [bitRev, this]
  | succ w ih =>
    have hhalf : i / 2 < 2 ^ w := by
      have hp : 2 ^ (w + 1) = 2 ^ w * 2 := by ring
      rw [hp] at h
      exact Nat.div_lt_of_lt_mul (by omega)
    have hlow : bitRev w (i / 2) < 2 ^ w := bitRev_lt
    have hv : bitRev (w + 1) i = bitRev w (i / 2) + (i % 2) * 2 ^ w := rfl
    have hvlt : bitRev (w + 1) i < 2 ^ (w + 1) := bitRev_lt
    have hmod : bitRev (w + 1) i % 2 ^ w = bitRev w (i / 2) := by
      rw [hv, Nat.add_mul_mod_self_right, Nat.mod_eq_of_lt hlow]
    have hdiv : bitRev (w + 1) i / 2 ^ w = i % 2 := by
      rw [hv, Nat.add_mul_div_right _ _ (Nat.pos_pow_of_pos w (by omega)),
        Nat.div_eq_of_lt hlow]
      omega
    rw [bitRev_succ_high hvlt, hmod, hdiv, ih hhalf]
    omega

theorem bitRev_injOn {w i j : Nat} (hi : i < 2 ^ w) (hj : j < 2 ^ w)
    (h : bitRev w i = bitRev w j) : i = j := by
  have := bitRev_bitRev hi
  rw [h, bitRev_bitRev hj] at this
  omega

/-! ### `secure_next_int` (ntt.py lines 10–45)

```
if min == max: return min
if min > max: raise Exception(...)
i_range = max - min
if i_range == 0: return min
mask = i_range
numSize = (i_range.bit_length() +7) // 8
iter = int(math.log(numSize*8, 2))
for i in range(iter):
    mask |= mask >> pow(2, i)
result = 0
while True:
    result = int.from_bytes(os.urandom(numSize), byteorder="little") & mask
    if (result <= i_range): break
result += min
return result
```

The entropy source is a list of candidate values (each the little-endian value
of one `os.urandom(numSize)` call); the `while True` loop walks that list and
reports `exhausted` if it runs out (in Python it would keep drawing). -/

/-- Result of `secure_next_int`: a value, the `min > max` exception, or an
exhausted entropy stream (the embedding's rendering of a rejection loop that
has not yet accepted). -/
inductive SNI where
  | ok (r : Int)
  | rangeError
  | exhausted
deriving DecidableEq

/-- The mask after the doubling-shift loop of `secure_next_int`:
`mask = i_range; numSize = (bit_length + 7) // 8; iter = int(log2(numSize*8));`
then `iter` rounds of `mask |= mask >> 2^i`. -/
def maskAfterLoop (i_range : Nat) : Nat :=
  let numSize := (bitLen i_range + 7) / 8
  let iter := pyLog2 (numSize * 8)
  (List.range iter).foldl (fun mask i => mask ||| (mask >>> 2 ^ i)) i_range

/-- The rejection-sampling loop: take draws until one masked value is `≤ span`. -/
def sniDraw (mask span : Nat) : List Nat → Option Nat
  | [] => none
  | d :: ds =>
    let result := d &&& mask
    if result ≤ span then some result else sniDraw mask span ds

/-- `secure_next_int` (ntt.py lines 10–45), with the entropy source made
explicit as `draws`. -/
def secure_next_int (min max : Int) (draws : List Nat) : SNI :=
  if min = max then .ok min
  else if min > max then .rangeError
  else
    let i_range : Nat := (max - min).toNat
    if i_range = 0 then .ok min
    else
      match sniDraw (maskAfterLoop i_range) i_range draws with
      | some result => .ok (min + result)
      | none => .exhausted

theorem sniDraw_le {mask span : Nat} {draws : List Nat} {r : Nat}
    (h : sniDraw mask span draws = some r) : r ≤ span := by
  induction draws with
  | nil => simp [sniDraw] at h
  | cons d ds ih =>
    simp only [sniDraw] at h
    by_cases hle : d &&& mask ≤ span
    · simp only [if_pos hle, Option.some.injEq] at h
      omega
    · rw [if_neg hle] at h
      exact ih h

/-- C3: the claim states that after the doubling-shift loop the mask covers
every bit up to the highest set bit of `span`, i.e. equals
`2 ^ bit_length(span) - 1`.  The code computes `iter = int(log2(numSize*8))`
shift rounds, which saturates only `2 ^ iter` bits; for `span = 65536`
(bit length 17, `numSize = 3`, `iter = log2 24 = 4`) the rounds shift by
1, 2, 4, 8 and cover only the top 16 bits, leaving bit 0 clear: the mask is
`131070 = 2^17 - 2`, not `131071 = 2^17 - 1` as the claim requires.  So masked
draws are always even and odd offsets can never be returned for this span. -/
theorem maskAfterLoop_not_saturated_at_65536 :
    maskAfterLoop 65536 = 131070 ∧ 2 ^ bitLen 65536 - 1 = 131071 := by decide

/-- C5: whenever `secure_next_int` returns a value (for any outcome of the
entropy source), that value lies in the inclusive range `[min, max]`. -/
theorem secure_next_int_in_range (min max : Int) (draws : List Nat) (r : Int)
    (hle : min ≤ max) (h : secure_next_int min max draws = .ok r) :
    min ≤ r ∧ r ≤ max := by
  by_cases heq : min = max
  · simp only [secure_next_int, if_pos heq, SNI.ok.injEq] at h
    omega
  · have hlt : min < max := lt_of_le_of_ne hle heq
    simp only [secure_next_int, if_neg heq, if_neg (not_lt.mpr hle)] at h
    by_cases h0 : (max - min).toNat = 0
    · simp only [h0, if_pos rfl, SNI.ok.injEq] at h
      omega
    · rw [if_neg h0] at h
      rcases hd : sniDraw (maskAfterLoop (max - min).toNat) (max - min).toNat draws with
        _ | result
      · rw [hd] at h
        exact absurd h (by simp)
      · rw [hd] at h
        have hres : result ≤ (max - min).toNat := sniDraw_le hd
        have htn : ((max - min).toNat : Int) = max - min :=
          Int.toNat_of_nonneg (by omega)
        simp only [SNI.ok.injEq] at h
        have : (result : Int) ≤ max - min := by
          calc (result : Int) ≤ ((max - min).toNat : Int) := by exact_mod_cast hres
            _ = max - min := htn
        have hr0 : (0 : Int) ≤ (result : Int) := Int.natCast_nonneg result
        omega

/-- C5 witness: at `min = 0`, `max = 5` with a single draw `3`, the call
returns `3`, which lies in `[0, 5]`. -/
theorem secure_next_int_in_range_witness :
    (0 : Int) ≤ 3 ∧ (3 : Int) ≤ 5 :=
  secure_next_int_in_range 0 5 [3] 3 (by decide) (by decide)

/-- C7: `secure_next_int` reports the invalid-range error exactly when
`min > max`, and the degenerate case `min = max` returns `min` immediately
(before the range check or any entropy consumption). -/
theorem secure_next_int_error_iff (min max : Int) (draws : List Nat) :
    (secure_next_int min max draws = .rangeError ↔ max < min) ∧
    (min = max → secure_next_int min max draws = .ok min) := by
  constructor
  · by_cases heq : min = max
    · simp [secure_next_int, heq]
    · by_cases hgt : max < min
      · simp [secure_next_int, heq, hgt]
      · simp only [secure_next_int, if_neg heq, if_neg (by omega : ¬ min > max)]
        by_cases h0 : (max - min).toNat = 0
        · simp [h0, hgt]
        · rw [if_neg h0]
          rcases hd : sniDraw (maskAfterLoop (max - min).toNat) (max - min).toNat draws with
            _ | result <;> simp [hd, hgt]
  · intro heq
    simp [secure_next_int, heq]

/-- C7 witness: `min = max = 3` returns `3`; `min = 5 > max = 2` raises. -/
theorem secure_next_int_error_iff_witness :
    secure_next_int 3 3 [] = SNI.ok 3 ∧ secure_next_int 5 2 [] = SNI.rangeError :=
  ⟨(secure_next_int_error_iff 3 3 []).2 rfl,
   (secure_next_int_error_iff 5 2 []).1.mpr (by decide)⟩

/-! ### `get_prim_root` (ntt.py lines 47–82)

```
n = 2*n
if r==None:
    r = (q -1) // n
tries = 50
for _ in range(tries):
    uri = secure_next_int(2,q-1)
    candidate = pow(uri,r, q)
    if pow(candidate, n//2, q) == q-1:
        return candidate
raise Exception("Failed to find primitive nth root of unity.")
```

The stream of `secure_next_int(2, q-1)` outcomes is abstracted as `uris`
(`uris j` is the `j`-th draw); the theorems quantify over it. -/

/-- The bounded search loop of `get_prim_root`: starting at draw index `idx`
with `fuel` tries left, raise a candidate to the `r`-th power mod `q` and
accept it when its `e`-th power is `q - 1` mod `q`. -/
def rootSearch (q r e : Nat) (uris : Nat → Nat) : Nat → Nat → Option Nat
  | _, 0 => none
  | idx, fuel + 1 =>
    let candidate := (uris idx) ^ r % q
    if candidate ^ e % q = q - 1 then some candidate
    else rootSearch q r e uris (idx + 1) fuel

/-- `get_prim_root` (ntt.py lines 47–82).  `ropt` is the optional `r`
argument (defaulting to `(q - 1) // (2n)`); `uris` the entropy stream. -/
def get_prim_root (n q : Nat) (ropt : Option Nat) (uris : Nat → Nat) : Option Nat :=
  let n2 := 2 * n
  let r := match ropt with
    | none => (q - 1) / n2
    | some r => r
  rootSearch q r (n2 / 2) uris 0 50

theorem rootSearch_none_iff (q r e : Nat) (uris : Nat → Nat) (idx fuel : Nat) :
    rootSearch q r e uris idx fuel = none ↔
      ∀ d, d < fuel → ¬ ((uris (idx + d)) ^ r % q) ^ e % q = q - 1 := by
  induction fuel generalizing idx with
  | zero => simp [rootSearch]
  | succ fuel ih =>
    simp only [rootSearch]
    by_cases hacc : ((uris idx) ^ r % q) ^ e % q = q - 1
    · simp only [if_pos hacc]
      constructor
      · intro h
        exact absurd h (by simp)
      · intro h
        exact absurd hacc (by simpa using h 0 (by omega))
    · simp only [if_neg hacc, ih]
      constructor
      · intro h d hd
        rcases d with _ | d
        · simpa using hacc
        · have := h d (by omega)
          simpa [Nat.add_assoc, Nat.add_comm 1 d] using this
      · intro h d hd
        have := h (d + 1) (by omega)
        simpa [Nat.add_assoc, Nat.add_comm 1 d] using this

theorem rootSearch_congr (q r e : Nat) (uris uris' : Nat → Nat) (idx fuel : Nat)
    (h : ∀ j, idx ≤ j → j < idx + fuel → uris j = uris' j) :
    rootSearch q r e uris idx fuel = rootSearch q r e uris' idx fuel := by
  induction fuel generalizing idx with
  | zero => rfl
  | succ fuel ih =>
    have h0 : uris idx = uris' idx := h idx le_rfl (by omega)
    simp only [rootSearch, h0]
    by_cases hacc : ((uris' idx) ^ r % q) ^ e % q = q - 1
    · simp [if_pos hacc]
    · simp only [if_neg hacc]
      exact ih (idx + 1) (fun j h1 h2 => h j (by omega) (by omega))

theorem rootSearch_some (q r e : Nat) (uris : Nat → Nat) {idx fuel ψ : Nat}
    (h : rootSearch q r e uris idx fuel = some ψ) : ψ ^ e % q = q - 1 := by
  induction fuel generalizing idx with
  | zero => simp [rootSearch] at h
  | succ fuel ih =>
    simp only [rootSearch] at h
    by_cases hacc : ((uris idx) ^ r % q) ^ e % q = q - 1
    · rw [if_pos hacc] at h
      cases h
      exact hacc
    · rw [if_neg hacc] at h
      exact ih h

/-- C6: the search fails (raises `RootNotFoundError`) if and only if each of
the 50 candidates `(uris i)^r mod q`, `i < 50`, fails the acceptance test
`candidate^n mod q = q - 1`; moreover the result depends only on the first 50
draws, so no more than 50 candidates are ever attempted, and the budget 50 is
a fixed constant of the code, not a parameter. -/
theorem get_prim_root_budget (n q : Nat) (ropt : Option Nat) (uris : Nat → Nat) :
    (get_prim_root n q ropt uris = none ↔
      ∀ i, i < 50 →
        ¬ ((uris i) ^ (ropt.getD ((q - 1) / (2 * n))) % q) ^ n % q = q - 1) ∧
    (∀ uris' : Nat → Nat, (∀ i, i < 50 → uris i = uris' i) →
      get_prim_root n q ropt uris = get_prim_root n q ropt uris') := by
  have hn2 : 2 * n / 2 = n := by omega
  have hr : (match ropt with
      | none => (q - 1) / (2 * n)
      | some r => r) = ropt.getD ((q - 1) / (2 * n)) := by
    cases ropt <;> rfl
  constructor
  · simp only [get_prim_root, hn2, hr, rootSearch_none_iff]
    constructor
    · intro h i hi
      simpa using h i hi
    · intro h d hd
      simpa using h d hd
  · intro uris' hagree
    simp only [get_prim_root, hn2, hr]
    exact rootSearch_congr q _ n uris uris' 0 50 (fun j h1 h2 => hagree j (by omega))

/-- C4: any root returned by `get_prim_root` satisfies `ψ^n ≡ q - 1 (mod q)`
and `ψ^(2n) ≡ 1 (mod q)` — the first is exactly the acceptance test, the
second follows because `(q-1)^2 ≡ 1 (mod q)`. -/
theorem get_prim_root_is_root (n q k : Nat) (ropt : Option Nat) (uris : Nat → Nat)
    (ψ : Nat) (hn : n = 2 ^ k) (hq : Nat.Prime q) (hmod : q % (2 * n) = 1)
    (h : get_prim_root n q ropt uris = some ψ) :
    ψ ^ n % q = q - 1 ∧ ψ ^ (2 * n) % q = 1 := by
  have hq2 : 2 ≤ q := hq.two_le
  have hn2 : 2 * n / 2 = n := by omega
  simp only [get_prim_root, hn2] at h
  have h1 : ψ ^ n % q = q - 1 := rootSearch_some q _ n uris h
  refine ⟨h1, ?_⟩
  have h2 : ψ ^ (2 * n) = (ψ ^ n) ^ 2 := by
    rw [← pow_mul, Nat.mul_comm]
  have h3 : (q - 1) ^ 2 % q = 1 := by
    obtain ⟨m, rfl⟩ : ∃ m, q = m + 2 := ⟨q - 2, by omega⟩
    have he : (m + 2 - 1) ^ 2 = (m + 2) * m + 1 := by
      have hm : m + 2 - 1 = m + 1 := by omega
      rw [hm]
      ring
    rw [he, Nat.mul_add_mod]
    exact Nat.mod_eq_of_lt (by omega)
  calc ψ ^ (2 * n) % q = (ψ ^ n) ^ 2 % q := by rw [h2]
    _ = (ψ ^ n % q) ^ 2 % q := by rw [Nat.pow_mod]
    _ = (q - 1) ^ 2 % q := by rw [h1]
    _ = 1 := h3

/-- C4 witness: `n = 4 = 2^2`, `q = 17` (prime, `17 ≡ 1 (mod 8)`), constant
draw stream `3`: the first candidate is `3^2 mod 17 = 9`, accepted since
`9^4 mod 17 = 16`, and indeed `9^8 mod 17 = 1`. -/
theorem get_prim_root_is_root_witness :
    9 ^ 4 % 17 = 16 ∧ 9 ^ (2 * 4) % 17 = 1 :=
  get_prim_root_is_root 4 17 2 none (fun _ => 3) 9 (by decide) (by decide)
    (by decide) (by decide)

/-! ### List access helpers -/

theorem getD_set_self {α : Type} (l : List α) (i : Nat) (v d : α) (h : i < l.length) :
    (l.set i v).getD i d = v := by
  induction l generalizing i with
  | nil => simp at h
  | cons x xs ih =>
    rcases i with _ | i
    · rfl
    · simpa [List.getD_cons_succ] using ih i (by simpa using h)

theorem getD_set_ne {α : Type} (l : List α) {i j : Nat} (v d : α) (h : i ≠ j) :
    (l.set i v).getD j d = l.getD j d := by
  induction l generalizing i j with
  | nil => rfl
  | cons x xs ih =>
    rcases i with _ | i <;> rcases j with _ | j
    · omega
    · rfl
    · rfl
    · rw [List.set_cons_succ, List.getD_cons_succ, List.getD_cons_succ]
      exact ih (by omega)

theorem getD_map_of_lt {α β : Type} (f : α → β) (l : List α) {i : Nat}
    (h : i < l.length) (d : α) (d' : β) : (l.map f).getD i d' = f (l.getD i d) := by
  induction l generalizing i with
  | nil => simp at h
  | cons x xs ih =>
    rcases i with _ | i
    · rfl
    · simpa [List.getD_cons_succ] using ih (by simpa using h)

theorem list_ext_getD {α : Type} (d : α) {l₁ l₂ : List α} (hlen : l₁.length = l₂.length)
    (h : ∀ i, i < l₁.length → l₁.getD i d = l₂.getD i d) : l₁ = l₂ := by
  induction l₁ generalizing l₂ with
  | nil =>
    cases l₂ with
    | nil => rfl
    | cons y ys => simp at hlen
  | cons x xs ih =>
    cases l₂ with
    | nil => simp at hlen
    | cons y ys =>
      have h0 := h 0 (by simp)
      simp only [List.getD_cons_zero] at h0
      have htl : xs = ys := by
        refine ih (by simpa using hlen) ?_
        intro i hi
        simpa [List.getD_cons_succ] using h (i + 1) (by simpa using Nat.succ_lt_succ hi)
      rw [h0, htl]

/-! ### `bit_reverse_order` (ntt.py lines 170–195)

```
num_bits = len(bin(len(a) - 1)) - 2
result = [0] * len(a)
for i in range(len(a)):
    rev_index = int(bin(i)[2:].zfill(num_bits)[::-1], 2)
    result[rev_index] = a[i]
return result
```

`len(bin(L - 1)) - 2` is `bit_length(L - 1)` for `L ≥ 2`, and `1` for `L = 1`
(`bin(0) = '0b0'`), `2` for `L = 0` (`bin(-1) = '-0b1'`).  The assignment
`result[rev_index] = a[i]` raises `IndexError` when `rev_index ≥ len(result)`,
embedded as `none`.  Since `i < L ≤ 2 ^ num_bits` throughout the loop,
`bitRev num_bits i` is exactly the Python reversed-bit-string value. -/

/-- The write loop of `bit_reverse_order`: for `c` more indices starting at
`i`, place `a[i]` at index `bitRev w i` of the accumulator, failing like
Python's `IndexError` if that index is out of range. -/
def broLoop {α : Type} (a : List α) (w : Nat) (z : α) : Nat → Nat → List α → Option (List α)
  | _, 0, res => some res
  | i, c + 1, res =>
    let rev := bitRev w i
    if rev < res.length then broLoop a w z (i + 1) c (res.set rev (a.getD i z))
    else none

/-- `bit_reverse_order` (ntt.py lines 170–195). -/
def bit_reverse_order {α : Type} [Zero α] (a : List α) : Option (List α) :=
  let L := a.length
  let num_bits := if L = 0 then 2 else if L = 1 then 1 else bitLen (L - 1)
  broLoop a num_bits 0 0 L (List.replicate L 0)

theorem broLoop_char {α : Type} (a : List α) (w : Nat) (z : α) :
    ∀ (c i : Nat) (res : List α),
      (∀ d, d < c → bitRev w (i + d) < res.length) →
      (∀ d1 d2, d1 < c → d2 < c → bitRev w (i + d1) = bitRev w (i + d2) → d1 = d2) →
      ∃ out, broLoop a w z i c res = some out ∧ out.length = res.length ∧
        (∀ d, d < c → out.getD (bitRev w (i + d)) z = a.getD (i + d) z) ∧
        (∀ p, (∀ d, d < c → bitRev w (i + d) ≠ p) → out.getD p z = res.getD p z) := by
  intro c
  induction c with
  | zero =>
    intro i res hb hinj
    exact ⟨res, rfl, rfl, by omega, fun p _ => rfl⟩
  | succ c ih =>
    intro i res hb hinj
    have hrev0 : bitRev w i < res.length := by simpa using hb 0 (by omega)
    set res' := res.set (bitRev w i) (a.getD i z) with hres'
    have hlen' : res'.length = res.length := by simp [hres']
    obtain ⟨out, hrun, hlen, hwr, hun⟩ := ih (i + 1) res'
      (fun d hd => by
        have := hb (d + 1) (by omega)
        simpa [hlen', Nat.add_assoc, Nat.add_comm 1 d] using this)
      (fun d1 d2 h1 h2 heq => by
        have := hinj (d1 + 1) (d2 + 1) (by omega) (by omega)
          (by simpa [Nat.add_assoc, Nat.add_comm 1 d1, Nat.add_comm 1 d2] using heq)
        omega)
    refine ⟨out, ?_, by rw [hlen, hlen'], ?_, ?_⟩
    · simp only [broLoop, if_pos hrev0]
      exact hrun
    · intro d hd
      rcases d with _ | d
      · have hne : ∀ d', d' < c → bitRev w (i + 1 + d') ≠ bitRev w (i + 0) := by
          intro d' hd' heq
          have := hinj (d' + 1) 0 (by omega) (by omega)
            (by simpa [Nat.add_assoc, Nat.add_comm 1 d'] using heq)
          omega
        have := hun (bitRev w (i + 0)) (fun d' hd' => hne d' hd')
        rw [this]
        simpa [hres'] using getD_set_self res (bitRev w i) (a.getD i z) z hrev0
      · have := hwr d (by omega)
        simpa [Nat.add_assoc, Nat.add_comm 1 d] using this
    · intro p hp
      have h0 : bitRev w i ≠ p := by simpa using hp 0 (by omega)
      rw [hun p (fun d hd => by
        have := hp (d + 1) (by omega)
        simpa [Nat.add_assoc, Nat.add_comm 1 d] using this)]
      simpa [hres'] using getD_set_ne res (a.getD i z) z h0

/-- C8: on any sequence of power-of-two length `2 ^ k`, `bit_reverse_order`
succeeds and returns a sequence `b` of the same length with
`b[bitRev k i] = a[i]` for every index `i` — the element at `i` moves to the
index obtained by reversing the bit pattern of `i` over `k = ceil(log2 L)`
bits. -/
theorem bit_reverse_order_spec {α : Type} [Zero α] (a : List α) (k : Nat)
    (h : a.length = 2 ^ k) :
    ∃ b, bit_reverse_order a = some b ∧ b.length = a.length ∧
      ∀ i, i < a.length → b.getD (bitRev k i) 0 = a.getD i 0 := by
  rcases k with _ | k
  · have h1 : a.length = 1 := by simpa using h
    obtain ⟨x, rfl⟩ : ∃ x, a = [x] := by
      rcases a with _ | ⟨x, _ | ⟨y, t⟩⟩ <;> simp_all
    refine ⟨[x], ?_, rfl, ?_⟩
    · simp [bit_reverse_order, broLoop, bitRev]
    · intro i hi
      have : i = 0 := by simpa using hi
      subst this
      simp [bitRev]
  · have hge2 : 2 ≤ a.length := by
      rw [h]
      calc (2 : Nat) = 2 ^ 1 := rfl
        _ ≤ 2 ^ (k + 1) := Nat.pow_le_pow_right (by omega) (by omega)
    have hL0 : ¬ a.length = 0 := by omega
    have hL1 : ¬ a.length = 1 := by omega
    have hbl : bitLen (a.length - 1) = k + 1 := by
      rw [h]
      exact bitLen_two_pow_sub_one k
    obtain ⟨out, hrun, hlen, hwr, _⟩ := broLoop_char a (k + 1) (0 : α) a.length 0
      (List.replicate a.length 0)
      (fun d hd => by
        have := @bitRev_lt (k + 1) (0 + d)
        simpa [h] using this)
      (fun d1 d2 h1 h2 heq => by
        have := bitRev_injOn (w := k + 1) (i := 0 + d1) (j := 0 + d2)
          (by omega) (by omega) heq
        omega)
    refine ⟨out, ?_, by simpa using hlen, ?_⟩
    · simp only [bit_reverse_order, if_neg hL0, if_neg hL1, hbl]
      exact hrun
    · intro i hi
      simpa using hwr i hi

theorem bit_reverse_order_getD {α : Type} [Zero α] {a b : List α} {k : Nat}
    (h : a.length = 2 ^ k) (hb : bit_reverse_order a = some b) :
    b.length = a.length ∧ ∀ p, p < a.length → b.getD p 0 = a.getD (bitRev k p) 0 := by
  obtain ⟨b', hrun, hlen, hwr⟩ := bit_reverse_order_spec a k h
  rw [hrun, Option.some.injEq] at hb
  subst hb
  refine ⟨hlen, ?_⟩
  intro p hp
  have hpk : p < 2 ^ k := by omega
  have hrevlt : bitRev k p < a.length := by
    have := @bitRev_lt k p
    omega
  have := hwr (bitRev k p) hrevlt
  rwa [bitRev_bitRev hpk] at this

/-- C8 witness: on `[10, 20, 30, 40]` (length `4 = 2^2`) the permutation
succeeds, and index `i` lands at the 2-bit reversal of `i`. -/
theorem bit_reverse_order_spec_witness :
    ∃ b, bit_reverse_order [(10 : Int), 20, 30, 40] = some b ∧
      b.length = [(10 : Int), 20, 30, 40].length ∧
      ∀ i, i < [(10 : Int), 20, 30, 40].length →
        b.getD (bitRev 2 i) 0 = [(10 : Int), 20, 30, 40].getD i 0 :=
  bit_reverse_order_spec [(10 : Int), 20, 30, 40] 2 (by decide)

/-- C10: on any list of length 6 the write loop of `bit_reverse_order`
computes `num_bits = bit_length(5) = 3` and at `i = 3` the reversed index is
`bitRev 3 3 = 6 ≥ 6`, so the assignment `result[6] = a[3]` raises
`IndexError` (embedded as `none`) regardless of the list's contents. -/
theorem bit_reverse_order_fails_length_six (a : List Int) (h : a.length = 6) :
    bit_reverse_order a = none := by
  rcases a with _ | ⟨a0, a⟩
  · simp at h
  rcases a with _ | ⟨a1, a⟩
  · simp at h
  rcases a with _ | ⟨a2, a⟩
  · simp at h
  rcases a with _ | ⟨a3, a⟩
  · simp at h
  rcases a with _ | ⟨a4, a⟩
  · simp at h
  rcases a with _ | ⟨a5, a⟩
  · simp at h
  rcases a with _ | ⟨a6, a⟩
  · simp [bit_reverse_order, broLoop, bitLen, pyLog2, log2fuel, bitRev]
  · simp at h

/-- C10 witness: the concrete length-6 list `[0, 1, 2, 3, 4, 5]` fails. -/
theorem bit_reverse_order_fails_length_six_witness :
    bit_reverse_order [(0 : Int), 1, 2, 3, 4, 5] = none :=
  bit_reverse_order_fails_length_six _ (by decide)

/-! ### `speedup_FNTT` (ntt.py lines 84–123) and `speedup_INTT` (lines 124–168)

```
def speedup_FNTT(a, q, psi_table_rev):
    n = len(a); t = n; A = [x for x in a]; m = 1
    while m < n:
        t >>= 1
        for i in range(m):
            j_1 = 2 * i * t; j_2 = j_1 + t - 1
            S = psi_table_rev[m + i]
            for j in range(j_1, j_2+1):
                U = A[j]; V = A[j + t] * S
                A[j] = (U + V) % q; A[j + t] = (U - V) % q
        m<<=1
    return A

def speedup_INTT(a, q, psi_inv_table_rev):
    n = len(a); A = [x for x in a]; t = 1; m = n
    while m > 1:
        j_1 = 0; h = m >> 1
        for i in range(h):
            j_2 = j_1 + t - 1
            S = psi_inv_table_rev[h + i]
            for j in range(j_1, j_2+1):
                U = A[j]; V = A[j + t]
                A[j] = (U + V) % q; A[j + t] = ((U - V) * S) % q
            j_1 += t << 1
        t<<=1; m>>=1
    n_inv = pow(n,-1, q)
    for j in range(n):
        A[j] = (A[j] * n_inv) % q
    return A
```

The `for j in range(j_1, j_2+1)` loop runs `t` iterations; in `speedup_INTT`
the group start `j_1` is `2*i*t` for group `i` (it advances by `t << 1`).
Reads use `List.getD _ 0` (for the argument shapes in the claims every index
is in bounds, so the default is never consulted); the table lookups
`psi_table_rev[m + i]` likewise always have `m + i < n = len(table)` there.
The `while` loops (`m` doubling, resp. halving) are driven by fuel `n`, which
is enough since the loops run at most `log2 n` iterations. -/

/-- The inner butterfly loop of `speedup_FNTT`: `c` iterations starting at
`j`, each doing `A[j], A[j+t] := (U + V) % q, (U - V) % q` with `U = A[j]`,
`V = A[j+t] * S`. -/
def fnttInner (q : Nat) (S : Int) (t : Nat) : Nat → Nat → List Int → List Int
  | _, 0, A => A
  | j, c + 1, A =>
    let U := A.getD j 0
    let V := A.getD (j + t) 0 * S
    fnttInner q S t (j + 1) c
      ((A.set j ((U + V) % (q : Int))).set (j + t) ((U - V) % (q : Int)))

/-- The group loop (`for i in range(m)`) of one `speedup_FNTT` stage. -/
def fnttStage (q : Nat) (T : List Int) (m t : Nat) : Nat → Nat → List Int → List Int
  | _, 0, A => A
  | i, g + 1, A =>
    fnttStage q T m t (i + 1) g (fnttInner q (T.getD (m + i) 0) t (2 * i * t) t A)

/-- The `while m < n` loop of `speedup_FNTT` (`t` is halved at the top of each
iteration, then `m` doubles). -/
def fnttLoop (q : Nat) (T : List Int) (n : Nat) : Nat → Nat → Nat → List Int → List Int
  | 0, _, _, A => A
  | fuel + 1, m, t, A =>
    if m < n then fnttLoop q T n fuel (2 * m) (t / 2) (fnttStage q T m (t / 2) 0 m A)
    else A

/-- `speedup_FNTT` (ntt.py lines 84–123).  The Python copy `A = [x for x in a]`
is the identity on the immutable embedded list (see
`speedup_FNTT_tracked` for the aliasing-visible rendering). -/
def speedup_FNTT (a : List Int) (q : Nat) (psi_table_rev : List Int) : List Int :=
  fnttLoop q psi_table_rev a.length a.length 1 a.length a

/-- The inner butterfly loop of `speedup_INTT` (Gentleman–Sande):
`A[j], A[j+t] := (U + V) % q, ((U - V) * S) % q`. -/
def inttInner (q : Nat) (S : Int) (t : Nat) : Nat → Nat → List Int → List Int
  | _, 0, A => A
  | j, c + 1, A =>
    let U := A.getD j 0
    let V := A.getD (j + t) 0
    inttInner q S t (j + 1) c
      ((A.set j ((U + V) % (q : Int))).set (j + t) (((U - V) * S) % (q : Int)))

/-- The group loop (`for i in range(h)`) of one `speedup_INTT` stage. -/
def inttStage (q : Nat) (T : List Int) (h t : Nat) : Nat → Nat → List Int → List Int
  | _, 0, A => A
  | i, g + 1, A =>
    inttStage q T h t (i + 1) g (inttInner q (T.getD (h + i) 0) t (2 * i * t) t A)

/-- The `while m > 1` loop of `speedup_INTT`. -/
def inttLoop (q : Nat) (T : List Int) : Nat → Nat → Nat → List Int → List Int
  | 0, _, _, A => A
  | fuel + 1, m, t, A =>
    if 1 < m then inttLoop q T fuel (m / 2) (2 * t) (inttStage q T (m / 2) t 0 (m / 2) A)
    else A

/-- Python `pow(a, -1, q)`: the unique multiplicative inverse of `a` in
`[0, q)` when `gcd(a, q) = 1`, `none` (Python raises `ValueError`) otherwise. -/
def pyInvMod (a q : Nat) : Option Nat :=
  (List.range q).find? (fun y => (a * y) % q = 1)

/-- `speedup_INTT` (ntt.py lines 124–168); `none` is the `ValueError` of
`pow(n, -1, q)` when `n = len(a)` is not invertible mod `q`. -/
def speedup_INTT (a : List Int) (q : Nat) (psi_inv_table_rev : List Int) :
    Option (List Int) :=
  let n := a.length
  let B := inttLoop q psi_inv_table_rev n n 1 a
  match pyInvMod n q with
  | none => none
  | some n_inv => some (B.map (fun x => (x * (n_inv : Int)) % (q : Int)))

/-- usage.py lines 14–18: the twiddle table `[1, ψ, ψ², …]` accumulated by
`psi_table[i] = psi_table[i-1] * psi % q` (with `psi_table[0] = 1` left
unreduced, exactly as in the source). -/
def powTableAux (ψ q : Nat) (prev : Int) : Nat → List Int
  | 0 => []
  | c + 1 =>
    let nxt := (prev * (ψ : Int)) % (q : Int)
    nxt :: powTableAux ψ q nxt c

/-- usage.py lines 14–18. -/
def powTable (ψ q n : Nat) : List Int :=
  if n = 0 then [] else 1 :: powTableAux ψ q 1 (n - 1)

/-- usage.py line 28: `AB = [(x*y) % q for x,y in zip(A,B)]`. -/
def pointwise_mult (q : Nat) (A B : List Int) : List Int :=
  List.zipWith (fun x y => (x * y) % (q : Int)) A B

/-- `speedup_FNTT` with the caller's argument object tracked through the call:
the Python body copies `a` into a fresh list `A` (line 109) and every
subsequent assignment targets `A`, so the pair is (returned list, the
argument `a` as left after the call). -/
def speedup_FNTT_tracked (a : List Int) (q : Nat) (psi_table_rev : List Int) :
    List Int × List Int :=
  let A := a.map (fun x => x)
  (fnttLoop q psi_table_rev a.length a.length 1 a.length A, a)

/-- `speedup_INTT` with the caller's argument object tracked (copy at
line 148). -/
def speedup_INTT_tracked (a : List Int) (q : Nat) (psi_inv_table_rev : List Int) :
    Option (List Int) × List Int :=
  let A := a.map (fun x => x)
  let n := a.length
  let B := inttLoop q psi_inv_table_rev n n 1 A
  (match pyInvMod n q with
   | none => none
   | some n_inv => some (B.map (fun x => (x * (n_inv : Int)) % (q : Int))), a)

/-- C9: the transforms never modify their input vector: the tracked
renderings return the argument list unchanged alongside a freshly built
output, and that output coincides with the pure transforms of the input's
value. -/
theorem ntt_transforms_preserve_input (a : List Int) (q : Nat) (Tf Ti : List Int) :
    (speedup_FNTT_tracked a q Tf).2 = a ∧
    (speedup_FNTT_tracked a q Tf).1 = speedup_FNTT a q Tf ∧
    (speedup_INTT_tracked a q Ti).2 = a ∧
    (speedup_INTT_tracked a q Ti).1 = speedup_INTT a q Ti := by
  have hid : a.map (fun x => x) = a := List.map_id' a
  refine ⟨rfl, ?_, rfl, ?_⟩
  · simp only [speedup_FNTT_tracked, hid, speedup_FNTT]
  · simp only [speedup_INTT_tracked, hid, speedup_INTT]

/-! ### Residue-level view of the butterflies

All stored values are residues mod `q`, and every write reduces mod `q`, so
the `Int`-level loops project onto `ZMod q`-valued loops along the ring
homomorphism `Int → ZMod q`; the algebra of the transforms is proved on that
side and transported back.  `zInner`/`zStage` are generic in the butterfly
`bf` so that the Cooley–Tukey (`zbfCT`, used by `speedup_FNTT`) and the
Gentleman–Sande (`zbfGS`, used by `speedup_INTT`) shapes share one
characterisation. -/

/-- Cooley–Tukey butterfly on residues: `(U, V) ↦ (U + V*S, U - V*S)`. -/
def zbfCT {q : Nat} (S x y : ZMod q) : ZMod q × ZMod q := (x + y * S, x - y * S)

/-- Gentleman–Sande butterfly on residues: `(U, V) ↦ (U + V, (U - V)*S)`. -/
def zbfGS {q : Nat} (S x y : ZMod q) : ZMod q × ZMod q := (x + y, (x - y) * S)

/-- Residue-level inner loop: `c` butterflies on the pairs
`(j, j+t), (j+1, j+1+t), …`. -/
def zInner {q : Nat} (f : ZMod q → ZMod q → ZMod q × ZMod q) (t : Nat) :
    Nat → Nat → List (ZMod q) → List (ZMod q)
  | _, 0, A => A
  | j, c + 1, A =>
    let x := A.getD j 0
    let y := A.getD (j + t) 0
    zInner f t (j + 1) c ((A.set j (f x y).1).set (j + t) (f x y).2)

/-- Residue-level group loop: `g` groups starting at group index `i`, group
`i` spanning `[2*i*t, 2*i*t + 2*t)` with twiddle `T[m + i]`. -/
def zStage {q : Nat} (T : List (ZMod q)) (bf : ZMod q → ZMod q → ZMod q → ZMod q × ZMod q)
    (m t : Nat) : Nat → Nat → List (ZMod q) → List (ZMod q)
  | _, 0, A => A
  | i, g + 1, A =>
    zStage T bf m t (i + 1) g (zInner (bf (T.getD (m + i) 0)) t (2 * i * t) t A)

/-- Residue-level `while m < n` loop of the forward transform. -/
def zFnttLoop {q : Nat} (T : List (ZMod q)) (n : Nat) :
    Nat → Nat → Nat → List (ZMod q) → List (ZMod q)
  | 0, _, _, A => A
  | fuel + 1, m, t, A =>
    if m < n then zFnttLoop T n fuel (2 * m) (t / 2) (zStage T zbfCT m (t / 2) 0 m A)
    else A

/-- Residue-level `while m > 1` loop of the inverse transform. -/
def zInttLoop {q : Nat} (T : List (ZMod q)) :
    Nat → Nat → Nat → List (ZMod q) → List (ZMod q)
  | 0, _, _, A => A
  | fuel + 1, m, t, A =>
    if 1 < m then zInttLoop T fuel (m / 2) (2 * t) (zStage T zbfGS (m / 2) t 0 (m / 2) A)
    else A

/-! ### Transport from the `Int` level to the residue level -/

theorem map_set_comm {α β : Type} (f : α → β) (l : List α) (i : Nat) (v : α) :
    (l.set i v).map f = (l.map f).set i (f v) := by
  induction l generalizing i with
  | nil => rfl
  | cons x xs ih =>
    rcases i with _ | i
    · rfl
    · simp only [List.set_cons_succ, List.map_cons, ih]

theorem getD_intCast_map (q : Nat) (A : List Int) (p : Nat) :
    (A.map (fun x : Int => (x : ZMod q))).getD p 0 = ((A.getD p 0 : Int) : ZMod q) := by
  by_cases hp : p < A.length
  · rw [getD_map_of_lt _ _ hp 0]
  · rw [List.getD_eq_default _ _ (by simpa using not_lt.mp hp),
      List.getD_eq_default _ _ (not_lt.mp hp)]
    simp

theorem fnttInner_cast (q : Nat) (S : Int) (t : Nat) :
    ∀ (c j : Nat) (A : List Int),
      (fnttInner q S t j c A).map (fun x : Int => (x : ZMod q)) =
        zInner (zbfCT (S : ZMod q)) t j c (A.map (fun x : Int => (x : ZMod q))) := by
  intro c
  induction c with
  | zero => intro j A; rfl
  | succ c ih =>
    intro j A
    simp only [fnttInner, zInner, ih, map_set_comm, getD_intCast_map, zbfCT,
      ZMod.intCast_mod]
    push_cast
    ring_nf

theorem inttInner_cast (q : Nat) (S : Int) (t : Nat) :
    ∀ (c j : Nat) (A : List Int),
      (inttInner q S t j c A).map (fun x : Int => (x : ZMod q)) =
        zInner (zbfGS (S : ZMod q)) t j c (A.map (fun x : Int => (x : ZMod q))) := by
  intro c
  induction c with
  | zero => intro j A; rfl
  | succ c ih =>
    intro j A
    simp only [inttInner, zInner, ih, map_set_comm, getD_intCast_map, zbfGS,
      ZMod.intCast_mod]
    push_cast
    ring_nf

theorem fnttStage_cast (q : Nat) (T : List Int) (m t : Nat) :
    ∀ (g i : Nat) (A : List Int),
      (fnttStage q T m t i g A).map (fun x : Int => (x : ZMod q)) =
        zStage (T.map (fun x : Int => (x : ZMod q))) zbfCT m t i g
          (A.map (fun x : Int => (x : ZMod q))) := by
  intro g
  induction g with
  | zero => intro i A; rfl
  | succ g ih =>
    intro i A
    simp only [fnttStage, zStage, ih, fnttInner_cast, getD_intCast_map]

theorem inttStage_cast (q : Nat) (T : List Int) (m t : Nat) :
    ∀ (g i : Nat) (A : List Int),
      (inttStage q T m t i g A).map (fun x : Int => (x : ZMod q)) =
        zStage (T.map (fun x : Int => (x : ZMod q))) zbfGS m t i g
          (A.map (fun x : Int => (x : ZMod q))) := by
  intro g
  induction g with
  | zero => intro i A; rfl
  | succ g ih =>
    intro i A
    simp only [inttStage, zStage, ih, inttInner_cast, getD_intCast_map]

theorem fnttLoop_cast (q : Nat) (T : List Int) (n : Nat) :
    ∀ (fuel m t : Nat) (A : List Int),
      (fnttLoop q T n fuel m t A).map (fun x : Int => (x : ZMod q)) =
        zFnttLoop (T.map (fun x : Int => (x : ZMod q))) n fuel m t
          (A.map (fun x : Int => (x : ZMod q))) := by
  intro fuel
  induction fuel with
  | zero => intro m t A; rfl
  | succ fuel ih =>
    intro m t A
    by_cases hm : m < n
    · simp only [fnttLoop, zFnttLoop, if_pos hm, ih, fnttStage_cast]
    · simp only [fnttLoop, zFnttLoop, if_neg hm]

theorem inttLoop_cast (q : Nat) (T : List Int) :
    ∀ (fuel m t : Nat) (A : List Int),
      (inttLoop q T fuel m t A).map (fun x : Int => (x : ZMod q)) =
        zInttLoop (T.map (fun x : Int => (x : ZMod q))) fuel m t
          (A.map (fun x : Int => (x : ZMod q))) := by
  intro fuel
  induction fuel with
  | zero => intro m t A; rfl
  | succ fuel ih =>
    intro m t A
    by_cases hm : 1 < m
    · simp only [inttLoop, zInttLoop, if_pos hm, ih, inttStage_cast]
    · simp only [inttLoop, zInttLoop, if_neg hm]

theorem zInner_length {q : Nat} (f : ZMod q → ZMod q → ZMod q × ZMod q) (t : Nat) :
    ∀ (c j : Nat) (A : List (ZMod q)), (zInner f t j c A).length = A.length := by
  intro c
  induction c with
  | zero => intro j A; rfl
  | succ c ih =>
    intro j A
    simp only [zInner, ih, List.length_set]

theorem zStage_length {q : Nat} (T : List (ZMod q)) (bf) (m t : Nat) :
    ∀ (g i : Nat) (A : List (ZMod q)), (zStage T bf m t i g A).length = A.length := by
  intro g
  induction g with
  | zero => intro i A; rfl
  | succ g ih =>
    intro i A
    simp only [zStage, ih, zInner_length]

theorem zFnttLoop_length {q : Nat} (T : List (ZMod q)) (n : Nat) :
    ∀ (fuel m t : Nat) (A : List (ZMod q)), (zFnttLoop T n fuel m t A).length = A.length := by
  intro fuel
  induction fuel with
  | zero => intro m t A; rfl
  | succ fuel ih =>
    intro m t A
    by_cases hm : m < n
    · simp only [zFnttLoop, if_pos hm, ih, zStage_length]
    · simp only [zFnttLoop, if_neg hm]

theorem zInttLoop_length {q : Nat} (T : List (ZMod q)) :
    ∀ (fuel m t : Nat) (A : List (ZMod q)), (zInttLoop T fuel m t A).length = A.length := by
  intro fuel
  induction fuel with
  | zero => intro m t A; rfl
  | succ fuel ih =>
    intro m t A
    by_cases hm : 1 < m
    · simp only [zInttLoop, if_pos hm, ih, zStage_length]
    · simp only [zInttLoop, if_neg hm]

/-- The inner butterfly loop acts as a parallel in-place map on the index
pairs `(j+d, j+d+t)`, `d < c`: within one run no written cell is read again,
so every read sees the original list.  (`c ≤ t` ensures the low and high
halves do not overlap; the source always calls it with `c = t`.) -/
theorem zInner_getD {q : Nat} (f : ZMod q → ZMod q → ZMod q × ZMod q) (t : Nat) :
    ∀ (c j : Nat) (A : List (ZMod q)), c ≤ t → j + t + c ≤ A.length →
      ∀ p : Nat,
        (zInner f t j c A).getD p 0 =
          if j ≤ p ∧ p < j + c then (f (A.getD p 0) (A.getD (p + t) 0)).1
          else if j + t ≤ p ∧ p < j + t + c then (f (A.getD (p - t) 0) (A.getD p 0)).2
          else A.getD p 0 := by
  intro c
  induction c with
  | zero =>
    intro j A hct hb p
    have h1 : ¬ (j ≤ p ∧ p < j + 0) := by omega
    have h2 : ¬ (j + t ≤ p ∧ p < j + t + 0) := by omega
    simp only [zInner, if_neg h1, if_neg h2]
  | succ c ih =>
    intro j A hct hb p
    have ht1 : 1 ≤ t := by omega
    have hjlen : j < A.length := by omega
    have hjtlen : j + t < A.length := by omega
    set x := A.getD j 0 with hx
    set y := A.getD (j + t) 0 with hy
    set A' := (A.set j (f x y).1).set (j + t) (f x y).2 with hA'
    have hlenA' : A'.length = A.length := by simp [hA']
    have hstep : zInner f t j (c + 1) A = zInner f t (j + 1) c A' := rfl
    have hA'j : A'.getD j 0 = (f x y).1 := by
      rw [hA', getD_set_ne _ _ _ (by omega), getD_set_self _ _ _ _ hjlen]
    have hA'jt : A'.getD (j + t) 0 = (f x y).2 := by
      rw [hA', getD_set_self _ _ _ _ (by simpa using hjtlen)]
    have hA'other : ∀ r, r ≠ j → r ≠ j + t → A'.getD r 0 = A.getD r 0 := by
      intro r h1 h2
      rw [hA', getD_set_ne _ _ _ (by omega), getD_set_ne _ _ _ (by omega)]
    rw [hstep, ih (j + 1) A' (by omega) (by omega) p]
    by_cases hp1 : j + 1 ≤ p ∧ p < j + 1 + c
    · rw [if_pos hp1, hA'other p (by omega) (by omega),
        hA'other (p + t) (by omega) (by omega),
        if_pos (by omega : j ≤ p ∧ p < j + (c + 1))]
    · rw [if_neg hp1]
      by_cases hp2 : j + 1 + t ≤ p ∧ p < j + 1 + t + c
      · rw [if_pos hp2, hA'other (p - t) (by omega) (by omega),
          hA'other p (by omega) (by omega),
          if_neg (by omega : ¬ (j ≤ p ∧ p < j + (c + 1))),
          if_pos (by omega : j + t ≤ p ∧ p < j + t + (c + 1))]
      · rw [if_neg hp2]
        by_cases hpj : p = j
        · subst hpj
          rw [hA'j, if_pos (by omega : p ≤ p ∧ p < p + (c + 1))]
        · by_cases hpjt : p = j + t
          · subst hpjt
            rw [hA'jt, if_neg (by omega : ¬ (j ≤ j + t ∧ j + t < j + (c + 1))),
              if_pos (by omega : j + t ≤ j + t ∧ j + t < j + t + (c + 1))]
            have : j + t - t = j := by omega
            rw [this]
          · rw [hA'other p hpj hpjt,
              if_neg (by omega : ¬ (j ≤ p ∧ p < j + (c + 1))),
              if_neg (by omega : ¬ (j + t ≤ p ∧ p < j + t + (c + 1)))]

/-- One stage (a run of `g` disjoint groups starting at group `i0`) acts as a
parallel map: group `i` butterflies the pairs `(2it + r, 2it + r + t)`,
`r < t`, against twiddle `T[m + i]`, and positions outside the processed span
are untouched. -/
theorem zStage_getD {q : Nat} (T : List (ZMod q))
    (bf : ZMod q → ZMod q → ZMod q → ZMod q × ZMod q) (m t : Nat) (ht : 0 < t) :
    ∀ (g i0 : Nat) (A : List (ZMod q)), 2 * (i0 + g) * t ≤ A.length →
      (∀ p, p < 2 * i0 * t ∨ 2 * (i0 + g) * t ≤ p →
        (zStage T bf m t i0 g A).getD p 0 = A.getD p 0) ∧
      (∀ i r, i0 ≤ i → i < i0 + g → r < t →
        (zStage T bf m t i0 g A).getD (2 * i * t + r) 0 =
          (bf (T.getD (m + i) 0) (A.getD (2 * i * t + r) 0)
            (A.getD (2 * i * t + r + t) 0)).1 ∧
        (zStage T bf m t i0 g A).getD (2 * i * t + r + t) 0 =
          (bf (T.getD (m + i) 0) (A.getD (2 * i * t + r) 0)
            (A.getD (2 * i * t + r + t) 0)).2) := by
  intro g
  induction g with
  | zero =>
    intro i0 A hlen
    exact ⟨fun p hp => rfl, fun i r h1 h2 h3 => by omega⟩
  | succ g ih =>
    intro i0 A hlen
    set S0 := T.getD (m + i0) 0 with hS0
    set B := zInner (bf S0) t (2 * i0 * t) t A with hB
    have hstep : zStage T bf m t i0 (g + 1) A = zStage T bf m t (i0 + 1) g B := rfl
    have hlenB : B.length = A.length := zInner_length _ _ _ _ _
    have hexp : 2 * (i0 + (g + 1)) * t = 2 * i0 * t + 2 * t + 2 * g * t := by ring
    have hexp1 : 2 * (i0 + 1) * t = 2 * i0 * t + 2 * t := by ring
    have hexp2 : 2 * (i0 + 1 + g) * t = 2 * i0 * t + 2 * t + 2 * g * t := by ring
    have hbound : 2 * i0 * t + t + t ≤ A.length := by omega
    have hserl : 2 * (i0 + 1 + g) * t ≤ B.length := by omega
    obtain ⟨ihU, ihW⟩ := ih (i0 + 1) B hserl
    have hinner : ∀ p, B.getD p 0 =
        if 2 * i0 * t ≤ p ∧ p < 2 * i0 * t + t then
          (bf S0 (A.getD p 0) (A.getD (p + t) 0)).1
        else if 2 * i0 * t + t ≤ p ∧ p < 2 * i0 * t + t + t then
          (bf S0 (A.getD (p - t) 0) (A.getD p 0)).2
        else A.getD p 0 :=
      fun p => zInner_getD (bf S0) t t (2 * i0 * t) A le_rfl hbound p
    constructor
    · intro p hp
      rw [hstep, ihU p (by omega), hinner p,
        if_neg (by omega : ¬ (2 * i0 * t ≤ p ∧ p < 2 * i0 * t + t)),
        if_neg (by omega : ¬ (2 * i0 * t + t ≤ p ∧ p < 2 * i0 * t + t + t))]
    · intro i r hi1 hi2 hr
      by_cases hii : i = i0
      · subst hii
        constructor
        · rw [hstep, ihU _ (by omega), hinner _,
            if_pos (by omega : 2 * i * t ≤ 2 * i * t + r ∧ 2 * i * t + r < 2 * i * t + t)]
        · rw [hstep, ihU _ (by omega), hinner _,
            if_neg (by omega :
              ¬ (2 * i * t ≤ 2 * i * t + r + t ∧ 2 * i * t + r + t < 2 * i * t + t)),
            if_pos (by omega :
              2 * i * t + t ≤ 2 * i * t + r + t ∧ 2 * i * t + r + t < 2 * i * t + t + t)]
          have ept : 2 * i * t + r + t - t = 2 * i * t + r := by omega
          rw [ept]
      · have hge : 2 * (i0 + 1) * t ≤ 2 * i * t :=
          Nat.mul_le_mul_right t (by omega)
        obtain ⟨w1, w2⟩ := ihW i r (by omega) (by omega) hr
        have hBlo : B.getD (2 * i * t + r) 0 = A.getD (2 * i * t + r) 0 := by
          rw [hinner _, if_neg (by omega), if_neg (by omega)]
        have hBhi : B.getD (2 * i * t + r + t) 0 = A.getD (2 * i * t + r + t) 0 := by
          rw [hinner _, if_neg (by omega), if_neg (by omega)]
        rw [hstep]
        exact ⟨by rw [w1, hBlo, hBhi], by rw [w2, hBlo, hBhi]⟩

theorem getD_smul_map {q : Nat} (c : ZMod q) (A : List (ZMod q)) (p : Nat) :
    (A.map (fun x => c * x)).getD p 0 = c * A.getD p 0 := by
  by_cases hp : p < A.length
  · rw [getD_map_of_lt _ _ hp 0]
  · rw [List.getD_eq_default _ _ (by simpa using not_lt.mp hp),
      List.getD_eq_default _ _ (not_lt.mp hp), mul_zero]

/-- A Gentleman–Sande stage undoes the matching Cooley–Tukey stage up to a
global factor 2, provided the twiddles at the table positions the stage reads
are pointwise inverse. -/
theorem zStage_inverse {q : Nat} (Tf Ti : List (ZMod q)) (m t : Nat) (ht : 0 < t)
    (A : List (ZMod q)) (hlen : A.length = 2 * m * t)
    (htab : ∀ i, i < m → Tf.getD (m + i) 0 * Ti.getD (m + i) 0 = 1) :
    zStage Ti zbfGS m t 0 m (zStage Tf zbfCT m t 0 m A) =
      A.map (fun x => 2 * x) := by
  set X := zStage Tf zbfCT m t 0 m A with hX
  have hlenX : X.length = A.length := zStage_length _ _ _ _ _ _ _
  have hz : 2 * (0 + m) * t = 2 * m * t := by ring
  have hlen' : 2 * (0 + m) * t ≤ A.length := by omega
  obtain ⟨fU, fW⟩ := zStage_getD Tf zbfCT m t ht m 0 A hlen'
  obtain ⟨gU, gW⟩ := zStage_getD Ti zbfGS m t ht m 0 X (by omega)
  apply list_ext_getD (0 : ZMod q)
  · rw [zStage_length, hlenX, List.length_map]
  · intro p hp
    have hplen : p < 2 * m * t := by
      rw [zStage_length, hlenX] at hp
      omega
    obtain ⟨i, r', hir, hr'lt, hilt⟩ :
        ∃ i r', p = 2 * i * t + r' ∧ r' < 2 * t ∧ i < m := by
      refine ⟨p / (2 * t), p % (2 * t), ?_, Nat.mod_lt p (by omega), ?_⟩
      · have hdm : 2 * t * (p / (2 * t)) + p % (2 * t) = p := Nat.div_add_mod p (2 * t)
        have hc : 2 * t * (p / (2 * t)) = 2 * (p / (2 * t)) * t := by ring
        omega
      · refine Nat.div_lt_of_lt_mul ?_
        have hc : 2 * t * m = 2 * m * t := by ring
        omega
    subst hir
    have hmm : 2 * (i + 1) * t ≤ 2 * m * t := Nat.mul_le_mul_right t (by omega)
    have hmm' : 2 * (i + 1) * t = 2 * i * t + 2 * t := by ring
    have hSS := htab i hilt
    by_cases hcase : r' < t
    · obtain ⟨w1f, w2f⟩ := fW i r' (by omega) (by omega) hcase
      obtain ⟨w1g, _⟩ := gW i r' (by omega) (by omega) hcase
      rw [w1g, w1f, w2f, getD_map_of_lt _ _ (by omega) 0]
      simp only [zbfCT, zbfGS]
      ring
    · obtain ⟨r, rfl⟩ : ∃ r, r' = r + t := ⟨r' - t, by omega⟩
      have hrlt : r < t := by omega
      have hre : 2 * i * t + (r + t) = 2 * i * t + r + t := by ring
      rw [hre]
      obtain ⟨w1f, w2f⟩ := fW i r (by omega) (by omega) hrlt
      obtain ⟨_, w2g⟩ := gW i r (by omega) (by omega) hrlt
      rw [w2g, w1f, w2f, getD_map_of_lt _ _ (by omega) 0]
      simp only [zbfCT, zbfGS]
      set U := A.getD (2 * i * t + r) 0
      set V := A.getD (2 * i * t + r + t) 0
      have hexp : (U + V * Tf.getD (m + i) 0 - (U - V * Tf.getD (m + i) 0)) *
          Ti.getD (m + i) 0 = 2 * V * (Tf.getD (m + i) 0 * Ti.getD (m + i) 0) := by
        ring
      rw [hexp, hSS, mul_one]

theorem zInner_smul {q : Nat} (f : ZMod q → ZMod q → ZMod q × ZMod q) (c : ZMod q)
    (hbf : ∀ x y, f (c * x) (c * y) = (c * (f x y).1, c * (f x y).2)) (t : Nat) :
    ∀ (cc j : Nat) (A : List (ZMod q)),
      zInner f t j cc (A.map (fun x => c * x)) =
        (zInner f t j cc A).map (fun x => c * x) := by
  intro cc
  induction cc with
  | zero => intro j A; rfl
  | succ cc ih =>
    intro j A
    show zInner f t (j + 1) cc _ = _
    rw [getD_smul_map, getD_smul_map, hbf, ← map_set_comm, ← map_set_comm, ih]
    rfl

theorem zStage_smul {q : Nat} (T : List (ZMod q))
    (bf : ZMod q → ZMod q → ZMod q → ZMod q × ZMod q) (c : ZMod q)
    (hbf : ∀ S x y, bf S (c * x) (c * y) = (c * (bf S x y).1, c * (bf S x y).2))
    (m t : Nat) :
    ∀ (g i : Nat) (A : List (ZMod q)),
      zStage T bf m t i g (A.map (fun x => c * x)) =
        (zStage T bf m t i g A).map (fun x => c * x) := by
  intro g
  induction g with
  | zero => intro i A; rfl
  | succ g ih =>
    intro i A
    show zStage T bf m t (i + 1) g _ = _
    rw [zInner_smul _ c (hbf _) t, ih]
    rfl

theorem zInttLoop_smul {q : Nat} (T : List (ZMod q)) (c : ZMod q) :
    ∀ (fuel m t : Nat) (A : List (ZMod q)),
      zInttLoop T fuel m t (A.map (fun x => c * x)) =
        (zInttLoop T fuel m t A).map (fun x => c * x) := by
  intro fuel
  induction fuel with
  | zero => intro m t A; rfl
  | succ fuel ih =>
    intro m t A
    by_cases hm : 1 < m
    · simp only [zInttLoop, if_pos hm]
      rw [zStage_smul T zbfGS c ?hbf, ih]
      case hbf =>
        intro S x y
        simp only [zbfGS, Prod.mk.injEq]
        exact ⟨by ring, by ring⟩
    · simp only [zInttLoop, if_neg hm]

theorem powTableAux_length (ψ q : Nat) :
    ∀ (c : Nat) (prev : Int), (powTableAux ψ q prev c).length = c := by
  intro c
  induction c with
  | zero => intro prev; rfl
  | succ c ih => intro prev; simp [powTableAux, ih]

theorem powTable_length (ψ q n : Nat) : (powTable ψ q n).length = n := by
  rcases n with _ | n
  · rfl
  · simp [powTable, powTableAux_length]

theorem powTableAux_cast_getD (ψ q : Nat) :
    ∀ (c : Nat) (prev : Int) (i : Nat), i < c →
      (((powTableAux ψ q prev c).getD i 0 : Int) : ZMod q) =
        (prev : ZMod q) * (ψ : ZMod q) ^ (i + 1) := by
  intro c
  induction c with
  | zero => intro prev i hi; omega
  | succ c ih =>
    intro prev i hi
    rcases i with _ | i
    · show (((prev * (ψ : Int)) % (q : Int) : Int) : ZMod q) = _
      rw [ZMod.intCast_mod]
      push_cast
      ring
    · have hstep : (powTableAux ψ q prev (c + 1)).getD (i + 1) 0 =
          (powTableAux ψ q ((prev * (ψ : Int)) % (q : Int)) c).getD i 0 := rfl
      rw [hstep, ih _ i (by omega), ZMod.intCast_mod]
      push_cast
      ring

theorem powTable_cast_getD (ψ q n : Nat) :
    ∀ i, i < n → (((powTable ψ q n).getD i 0 : Int) : ZMod q) = (ψ : ZMod q) ^ i := by
  intro i hi
  rcases n with _ | n
  · omega
  · rcases i with _ | i
    · simp [powTable]
    · have hstep : (powTable ψ q (n + 1)).getD (i + 1) 0 =
          (powTableAux ψ q 1 n).getD i 0 := by
        simp [powTable]
      rw [hstep, powTableAux_cast_getD ψ q n 1 i (by omega)]
      push_cast
      ring

/-- A bit-reversed table of powers of `ψ`, read at index `p`, is
`ψ ^ bitRev k p` (as a residue). -/
theorem revTable_cast_getD {ψ q k : Nat} {T : List Int}
    (hT : bit_reverse_order (powTable ψ q (2 ^ k)) = some T) :
    T.length = 2 ^ k ∧
    ∀ p, p < 2 ^ k →
      ((T.getD p 0 : Int) : ZMod q) = (ψ : ZMod q) ^ bitRev k p := by
  have hlen : (powTable ψ q (2 ^ k)).length = 2 ^ k := powTable_length _ _ _
  obtain ⟨hlenT, hget⟩ := bit_reverse_order_getD hlen hT
  refine ⟨by rw [hlenT, hlen], ?_⟩
  intro p hp
  rw [hget p (by omega), powTable_cast_getD ψ q (2 ^ k) (bitRev k p)
    (by simpa using @bitRev_lt k p)]

/-- Round-trip core: the Gentleman–Sande stages of `zInttLoop`, run after the
Cooley–Tukey stages of `zFnttLoop` on matching twiddle tables, reduce to an
overall multiplication by `2 ^ (number of stages)`.  Downward induction on the
remaining forward stages (`d = k - s`, current stage parameter `m = 2 ^ s`,
`t = 2 ^ (k - s)`). -/
theorem zRoundTrip_core {q : Nat} (Tf Ti : List (ZMod q)) (k : Nat)
    (htab : ∀ idx, 1 ≤ idx → idx < 2 ^ k → Tf.getD idx 0 * Ti.getD idx 0 = 1) :
    ∀ (d s : Nat), s + d = k →
      ∀ (fF fI : Nat), d ≤ fF → k ≤ fI →
      ∀ A : List (ZMod q), A.length = 2 ^ k →
        zInttLoop Ti fI (2 ^ k) 1 (zFnttLoop Tf (2 ^ k) fF (2 ^ s) (2 ^ (k - s)) A) =
          zInttLoop Ti (fI - d) (2 ^ s) (2 ^ (k - s))
            (A.map (fun x => (2 : ZMod q) ^ d * x)) := by
  intro d
  induction d with
  | zero =>
    intro s hs fF fI hfF hfI A hA
    have hsk : s = k := by omega
    subst hsk
    have hstop : zFnttLoop Tf (2 ^ s) fF (2 ^ s) (2 ^ (s - s)) A = A := by
      rcases fF with _ | fF
      · rfl
      · simp [zFnttLoop]
    have h1 : (2 : Nat) ^ (s - s) = 1 := by rw [Nat.sub_self, pow_zero]
    have h2 : A.map (fun x => (2 : ZMod q) ^ 0 * x) = A := by
      rw [show (fun x => (2 : ZMod q) ^ 0 * x) = (fun x : ZMod q => x) from
        funext fun x => by simp, List.map_id']
    rw [hstop, Nat.sub_zero, h1, h2]

  | succ d ih =>
    intro s hs fF fI hfF hfI A hA
    have hsk : s < k := by omega
    obtain ⟨fF', rfl⟩ : ∃ fF', fF = fF' + 1 := ⟨fF - 1, by omega⟩
    have hmlt : (2 : Nat) ^ s < 2 ^ k := Nat.pow_lt_pow_right (by omega) hsk
    have hks : k - s = (k - (s + 1)) + 1 := by omega
    have htdiv : (2 : Nat) ^ (k - s) / 2 = 2 ^ (k - (s + 1)) := by
      rw [hks, pow_succ, Nat.mul_div_cancel _ (by omega)]
    have hstep : zFnttLoop Tf (2 ^ k) (fF' + 1) (2 ^ s) (2 ^ (k - s)) A =
        zFnttLoop Tf (2 ^ k) fF' (2 ^ (s + 1)) (2 ^ (k - (s + 1)))
          (zStage Tf zbfCT (2 ^ s) (2 ^ (k - (s + 1))) 0 (2 ^ s) A) := by
      simp only [zFnttLoop, if_pos hmlt, htdiv]
      congr 1
      rw [pow_succ]
      ring
    set A' := zStage Tf zbfCT (2 ^ s) (2 ^ (k - (s + 1))) 0 (2 ^ s) A with hA'
    have hlenA' : A'.length = 2 ^ k := by
      rw [hA', zStage_length, hA]
    rw [hstep, ih (s + 1) (by omega) fF' fI (by omega) hfI A' hlenA']
    have hfid : 1 ≤ fI - d := by omega
    obtain ⟨fI', hfI'⟩ : ∃ fI', fI - d = fI' + 1 := ⟨fI - d - 1, by omega⟩
    have hm1 : 1 < (2 : Nat) ^ (s + 1) := Nat.one_lt_two_pow_iff.mpr (by omega)
    have hmdiv : (2 : Nat) ^ (s + 1) / 2 = 2 ^ s := by
      rw [pow_succ, Nat.mul_div_cancel _ (by omega)]
    have histep : ∀ X : List (ZMod q),
        zInttLoop Ti (fI - d) (2 ^ (s + 1)) (2 ^ (k - (s + 1))) X =
          zInttLoop Ti fI' (2 ^ s) (2 ^ (k - s))
            (zStage Ti zbfGS (2 ^ s) (2 ^ (k - (s + 1))) 0 (2 ^ s) X) := by
      intro X
      rw [hfI']
      simp only [zInttLoop, if_pos hm1, hmdiv]
      congr 1
      rw [hks, pow_succ]
      ring
    rw [histep]
    have hsmul : zStage Ti zbfGS (2 ^ s) (2 ^ (k - (s + 1))) 0 (2 ^ s)
        (A'.map (fun x => (2 : ZMod q) ^ d * x)) =
          (zStage Ti zbfGS (2 ^ s) (2 ^ (k - (s + 1))) 0 (2 ^ s) A').map
            (fun x => (2 : ZMod q) ^ d * x) := by
      refine zStage_smul Ti zbfGS ((2 : ZMod q) ^ d) ?_ _ _ _ _ _
      intro S x y
      simp only [zbfGS, Prod.mk.injEq]
      exact ⟨by ring, by ring⟩
    have hinv : zStage Ti zbfGS (2 ^ s) (2 ^ (k - (s + 1))) 0 (2 ^ s) A' =
        A.map (fun x => 2 * x) := by
      rw [hA']
      refine zStage_inverse Tf Ti (2 ^ s) (2 ^ (k - (s + 1)))
        (Nat.pos_pow_of_pos _ (by omega)) A ?_ ?_
      · rw [hA]
        rw [show 2 * 2 ^ s * 2 ^ (k - (s + 1)) = 2 ^ (s + 1) * 2 ^ (k - (s + 1)) by
          rw [pow_succ]; ring]
        rw [← pow_add]
        congr 1
        omega
      · intro i hi
        refine htab (2 ^ s + i) (by have := Nat.one_le_two_pow (n := s); omega) ?_
        have h1 : (2 : Nat) ^ s + i < 2 ^ (s + 1) := by
          rw [pow_succ]
          omega
        have h2 : (2 : Nat) ^ (s + 1) ≤ 2 ^ k := Nat.pow_le_pow_right (by omega) (by omega)
        omega
    rw [hsmul, hinv, List.map_map]
    have hfun : ((fun x => (2 : ZMod q) ^ d * x) ∘ (fun x => 2 * x)) =
        fun x => (2 : ZMod q) ^ (d + 1) * x := by
      funext x
      simp only [Function.comp_apply, pow_succ]
      ring
    rw [hfun]
    congr 1
    omega

theorem zInttLoop_one {q : Nat} (T : List (ZMod q)) (fuel t : Nat) (A : List (ZMod q)) :
    zInttLoop T fuel 1 t A = A := by
  rcases fuel with _ | fuel
  · rfl
  · simp [zInttLoop]

theorem pyInvMod_spec {n q y : Nat} (h : pyInvMod n q = some y) : (n * y) % q = 1 := by
  have := List.find?_some h
  simpa using this

theorem pyInvMod_exists {n q : Nat} (y : Nat) (hy : y < q) (h : (n * y) % q = 1) :
    ∃ z, pyInvMod n q = some z ∧ (n * z) % q = 1 := by
  have hsome : (pyInvMod n q).isSome := by
    rw [pyInvMod, List.find?_isSome]
    exact ⟨y, List.mem_range.mpr hy, by simpa using h⟩
  obtain ⟨z, hz⟩ := Option.isSome_iff_exists.mp hsome
  exact ⟨z, hz, pyInvMod_spec hz⟩

theorem speedup_FNTT_length (a : List Int) (q : Nat) (T : List Int) :
    (speedup_FNTT a q T).length = a.length := by
  have h := congrArg List.length (fnttLoop_cast q T a.length a.length 1 a.length a)
  rw [List.length_map, zFnttLoop_length, List.length_map] at h
  exact h

theorem inttLoop_length (q : Nat) (T : List Int) (fuel m t : Nat) (A : List Int) :
    (inttLoop q T fuel m t A).length = A.length := by
  have h := congrArg List.length (inttLoop_cast q T fuel m t A)
  rw [List.length_map, zInttLoop_length, List.length_map] at h
  exact h

theorem intList_eq_of_cast {q : Nat} (hq : 0 < q) {L M : List Int}
    (hlen : L.length = M.length)
    (hLr : ∀ x ∈ L, 0 ≤ x ∧ x < q) (hMr : ∀ x ∈ M, 0 ≤ x ∧ x < q)
    (hcast : L.map (fun x : Int => (x : ZMod q)) = M.map (fun x : Int => (x : ZMod q))) :
    L = M := by
  apply list_ext_getD (0 : Int) hlen
  intro i hi
  have hgi : (L.map (fun x : Int => (x : ZMod q))).getD i 0 =
      (M.map (fun x : Int => (x : ZMod q))).getD i 0 := by rw [hcast]
  rw [getD_intCast_map, getD_intCast_map] at hgi
  have hmodeq : L.getD i 0 % (q : Int) = M.getD i 0 % (q : Int) :=
    (ZMod.intCast_eq_intCast_iff' _ _ _).mp hgi
  have hLmem : L.getD i 0 ∈ L := by
    rw [List.getD_eq_getElem _ _ hi]
    exact List.getElem_mem _
  have hMmem : M.getD i 0 ∈ M := by
    rw [List.getD_eq_getElem _ _ (by omega)]
    exact List.getElem_mem _
  obtain ⟨hL0, hL1⟩ := hLr _ hLmem
  obtain ⟨hM0, hM1⟩ := hMr _ hMmem
  rwa [Int.emod_eq_of_lt hL0 hL1, Int.emod_eq_of_lt hM0 hM1] at hmodeq

/-- Core recovery lemma shared by the round-trip and convolution theorems:
if an `Int`-level vector `P` of length `2^k` projects (mod `q`) onto the
forward-transform image of a residue vector that is itself the projection of
an `Int`-level vector `M` of canonical residues, then `speedup_INTT` applied
to `P` returns exactly `M`. -/
theorem speedup_INTT_recovers {k q : Nat} {Ti P M : List Int} (TfZ : List (ZMod q))
    (hq : Nat.Prime q) (hq21 : 2 * 2 ^ k + 1 ≤ q)
    (htab : ∀ idx, 1 ≤ idx → idx < 2 ^ k →
      TfZ.getD idx 0 * (Ti.map (fun x : Int => (x : ZMod q))).getD idx 0 = 1)
    (hPlen : P.length = 2 ^ k) (hMlen : M.length = 2 ^ k)
    (hMr : ∀ x ∈ M, 0 ≤ x ∧ x < q)
    (hPC : P.map (fun x : Int => (x : ZMod q)) =
      zFnttLoop TfZ (2 ^ k) (2 ^ k) (2 ^ 0) (2 ^ (k - 0))
        (M.map (fun x : Int => (x : ZMod q)))) :
    speedup_INTT P q Ti = some M := by
  have hq2 : 2 ≤ q := hq.two_le
  have hn0 : 0 < 2 ^ k := Nat.pos_pow_of_pos _ (by omega)
  have hnk : k < 2 ^ k := Nat.lt_two_pow k
  haveI : NeZero q := ⟨by omega⟩
  haveI := Fact.mk hq
  have hnlt : 2 ^ k < q := by omega
  have hnz : ((2 ^ k : Nat) : ZMod q) ≠ 0 := by
    rw [Ne, ZMod.natCast_zmod_eq_zero_iff_dvd]
    intro hdvd
    have := Nat.le_of_dvd hn0 hdvd
    omega
  have hny : (2 ^ k * (((2 ^ k : Nat) : ZMod q)⁻¹).val) % q = 1 := by
    have hcast : (((2 ^ k * (((2 ^ k : Nat) : ZMod q)⁻¹).val : Nat)) : ZMod q) =
        ((1 : Nat) : ZMod q) := by
      rw [Nat.cast_mul, ZMod.natCast_rightInverse, Nat.cast_one,
        mul_inv_cancel₀ hnz]
    have := (ZMod.natCast_eq_natCast_iff _ _ _).mp hcast
    have h1q : 1 % q = 1 := Nat.mod_eq_of_lt (by omega)
    unfold Nat.ModEq at this
    omega
  obtain ⟨ninv, hfind, hninv⟩ := pyInvMod_exists _ (ZMod.val_lt _) hny
  have hINTT : speedup_INTT P q Ti =
      some ((inttLoop q Ti (2 ^ k) (2 ^ k) 1 P).map
        (fun x => (x * (ninv : Int)) % (q : Int))) := by
    simp only [speedup_INTT, hPlen, hfind]
  rw [hINTT]
  congr 1
  have hninvZ : ((2 ^ k : Nat) : ZMod q) * ((ninv : Nat) : ZMod q) = 1 := by
    have h1 : (((2 ^ k * ninv) % q : Nat) : ZMod q) = ((1 : Nat) : ZMod q) := by
      rw [hninv]
    rwa [ZMod.natCast_mod, Nat.cast_mul, Nat.cast_one] at h1
  apply intList_eq_of_cast (q := q) (by omega)
  · rw [List.length_map, inttLoop_length, hPlen, hMlen]
  · intro x hx
    obtain ⟨b, hb, rfl⟩ := List.mem_map.mp hx
    constructor
    · exact Int.emod_nonneg _ (by exact_mod_cast (by omega : q ≠ 0))
    · exact Int.emod_lt_of_pos _ (by exact_mod_cast (by omega : 0 < q))
  · exact hMr
  · rw [List.map_map]
    have hscale : ((fun x : Int => (x : ZMod q)) ∘ fun x => (x * (ninv : Int)) % (q : Int)) =
        fun x : Int => (x : ZMod q) * ((ninv : Nat) : ZMod q) := by
      funext x
      simp only [Function.comp_apply, ZMod.intCast_mod]
      push_cast
      ring
    rw [hscale]
    have hsplit : ∀ B : List Int,
        B.map (fun x : Int => (x : ZMod q) * ((ninv : Nat) : ZMod q)) =
          (B.map (fun x : Int => (x : ZMod q))).map
            (fun z => z * ((ninv : Nat) : ZMod q)) := by
      intro B
      rw [List.map_map]
      rfl
    rw [hsplit, inttLoop_cast, hPC,
      zRoundTrip_core TfZ (Ti.map (fun x : Int => (x : ZMod q))) k htab k 0 (by omega)
        (2 ^ k) (2 ^ k) (by omega) (by omega)
        (M.map (fun x : Int => (x : ZMod q))) (by rw [List.length_map, hMlen])]
    simp only [pow_zero, Nat.sub_zero]
    rw [zInttLoop_one, List.map_map, List.map_map]
    have hfin : ((fun z => z * ((ninv : Nat) : ZMod q)) ∘
        fun x => (2 : ZMod q) ^ k * x) ∘ (fun x : Int => (x : ZMod q)) =
          fun x : Int => (x : ZMod q) := by
      funext x
      have h2k : (2 : ZMod q) ^ k = ((2 ^ k : Nat) : ZMod q) := by push_cast; ring
      simp only [Function.comp_apply, h2k]
      calc ((2 ^ k : Nat) : ZMod q) * (x : ZMod q) * ((ninv : Nat) : ZMod q)
          = (x : ZMod q) * (((2 ^ k : Nat) : ZMod q) * ((ninv : Nat) : ZMod q)) := by ring
        _ = (x : ZMod q) := by rw [hninvZ, mul_one]
    rw [hfin]

/-- The hypotheses of the two main transform theorems, distilled: `q ≥ 2n+1`
from primality and `q ≡ 1 (mod 2n)`. -/
theorem q_ge_two_n_succ {k q : Nat} (hq : Nat.Prime q) (hmod : q % (2 * 2 ^ k) = 1) :
    2 * 2 ^ k + 1 ≤ q := by
  have hq1lt := hq.one_lt
  rcases Nat.lt_or_ge q (2 * 2 ^ k) with hcase | hcase
  · rw [Nat.mod_eq_of_lt hcase] at hmod
    omega
  · have hne : q ≠ 2 * 2 ^ k := by
      intro he
      rw [he, Nat.mod_self] at hmod
      exact absurd hmod (by omega)
    omega

/-- The residue-level table-inverse property of matching bit-reversed tables
of powers of ψ and of a modular inverse of ψ. -/
theorem tables_inverse {k q ψ ψinv : Nat} {Tf Ti : List Int}
    (hinv : (ψ * ψinv) % q = 1)
    (hTf : bit_reverse_order (powTable ψ q (2 ^ k)) = some Tf)
    (hTi : bit_reverse_order (powTable ψinv q (2 ^ k)) = some Ti) :
    ∀ idx, 1 ≤ idx → idx < 2 ^ k →
      (Tf.map (fun x : Int => (x : ZMod q))).getD idx 0 *
        (Ti.map (fun x : Int => (x : ZMod q))).getD idx 0 = 1 := by
  have hψinv : (ψ : ZMod q) * (ψinv : ZMod q) = 1 := by
    have h1 : (((ψ * ψinv) % q : Nat) : ZMod q) = ((1 : Nat) : ZMod q) := by rw [hinv]
    rwa [ZMod.natCast_mod, Nat.cast_mul, Nat.cast_one] at h1
  obtain ⟨hTfLen, hTfGet⟩ := revTable_cast_getD hTf
  obtain ⟨hTiLen, hTiGet⟩ := revTable_cast_getD hTi
  intro idx h1 h2
  rw [getD_intCast_map, getD_intCast_map, hTfGet idx h2, hTiGet idx h2,
    ← mul_pow, hψinv, one_pow]

/-- C1: round trip.  For `n = 2^k`, prime `q ≡ 1 (mod 2n)`, a primitive
`2n`-th root of unity `ψ` mod `q` (with `ψinv` its modular inverse), and the
bit-reversed tables of powers of `ψ` and `ψinv` built as in usage.py,
`speedup_INTT` applied to `speedup_FNTT a` returns `a` for every list `a` of
`n` residues in `[0, q)`.  (The `some` on the right is the embedding of a
normal return; `none` would be the `ValueError` of `pow(n, -1, q)`.) -/
theorem ntt_round_trip (k q ψ ψinv : Nat) (Tf Ti a : List Int)
    (hq : Nat.Prime q) (hmod : q % (2 * 2 ^ k) = 1)
    (hord : orderOf ((ψ : Nat) : ZMod q) = 2 * 2 ^ k)
    (hinv : (ψ * ψinv) % q = 1)
    (hTf : bit_reverse_order (powTable ψ q (2 ^ k)) = some Tf)
    (hTi : bit_reverse_order (powTable ψinv q (2 ^ k)) = some Ti)
    (hlen : a.length = 2 ^ k)
    (hrange : ∀ x ∈ a, 0 ≤ x ∧ x < q) :
    speedup_INTT (speedup_FNTT a q Tf) q Ti = some a := by
  refine speedup_INTT_recovers (Tf.map (fun x : Int => (x : ZMod q))) hq
    (q_ge_two_n_succ hq hmod) (tables_inverse hinv hTf hTi)
    (by rw [speedup_FNTT_length, hlen]) hlen hrange ?_
  show (fnttLoop q Tf a.length a.length 1 a.length a).map _ = _
  rw [fnttLoop_cast, hlen]
  norm_num

/-- In `ZMod q` (`q` an odd prime), an element whose `2^k`-th power is `-1`
has order exactly `2^(k+1)`: its order divides `2^(k+1)` but no smaller power
of two reaches 1. -/
theorem orderOf_eq_of_pow_eq_neg_one {q k : Nat} (hq : Nat.Prime q) (hq2 : 2 < q)
    (ψ : ZMod q) (hψ : ψ ^ 2 ^ k = -1) : orderOf ψ = 2 * 2 ^ k := by
  haveI := Fact.mk hq
  haveI : Fact (2 < q) := Fact.mk hq2
  have h2n : ψ ^ (2 * 2 ^ k) = 1 := by
    rw [mul_comm, pow_mul, hψ, neg_one_sq]
  have hdvd : orderOf ψ ∣ 2 * 2 ^ k := orderOf_dvd_of_pow_eq_one h2n
  have hpow : 2 * 2 ^ k = 2 ^ (k + 1) := by
    rw [pow_succ]
    ring
  rw [hpow] at hdvd ⊢
  obtain ⟨j, hj, hordj⟩ := (Nat.dvd_prime_pow Nat.prime_two).mp hdvd
  by_cases hjk : j ≤ k
  · exfalso
    have hone : ψ ^ 2 ^ k = 1 := by
      have h1 : ψ ^ (2 ^ j * 2 ^ (k - j)) = 1 := by
        rw [pow_mul, ← hordj, pow_orderOf_eq_one, one_pow]
      rwa [← pow_add, show j + (k - j) = k by omega] at h1
    exact ZMod.neg_one_ne_one (hψ.symm.trans hone)
  · rw [hordj, show j = k + 1 by omega]

/-- C1 witness: `n = 4`, `q = 17`, `ψ = 9` (order 8 since `9^4 ≡ -1`),
`ψ⁻¹ = 2`; the tables are the bit-reversed `[1, 9, 13, 15]` and
`[1, 2, 4, 8]`; the round trip returns `[1, 2, 3, 4]` unchanged. -/
theorem ntt_round_trip_witness :
    speedup_INTT (speedup_FNTT [1, 2, 3, 4] 17 [1, 13, 9, 15]) 17 [1, 4, 2, 8] =
      some [1, 2, 3, 4] :=
  ntt_round_trip 2 17 9 2 [1, 13, 9, 15] [1, 4, 2, 8] [1, 2, 3, 4]
    (by decide) (by decide)
    (orderOf_eq_of_pow_eq_neg_one (by decide) (by decide) _ (by decide))
    (by decide) (by decide) (by decide) (by decide) (by decide)

/-! ### Closed form of the forward transform

The staged invariant of the Cooley–Tukey loop: before the stage with `m = 2^s`
blocks of length `L = 2^(k-s)`, block `i` of the working array holds the
residue of the input polynomial modulo `x^L - ψ^((2*bitRev s i + 1)*L)`, i.e.
position `i*L + r` holds `∑_{j ≡ r (mod L)} a_j ψ^((2*bitRev s i + 1)*L*(j/L))`.
After the last stage this gives the evaluation form
`Â[x] = ∑_j a_j ψ^((2*bitRev k x + 1)*j)`. -/

theorem mod_two_mul_split {t : Nat} (ht : 0 < t) (j r : Nat) (hr : r < t) :
    j % t = r ↔ j % (2 * t) = r ∨ j % (2 * t) = r + t := by
  have h1 : j % (2 * t) % t = j % t := Nat.mod_mod_of_dvd j ⟨2, by ring⟩
  have h2 : j % (2 * t) < 2 * t := Nat.mod_lt _ (by omega)
  constructor
  · intro h
    have hu : j % (2 * t) % t = r := by rw [h1, h]
    have hdm := Nat.div_add_mod (j % (2 * t)) t
    have hdiv : j % (2 * t) / t < 2 := Nat.div_lt_of_lt_mul (by omega)
    rcases Nat.le_one_iff_eq_zero_or_eq_one.mp (Nat.lt_succ_iff.mp hdiv) with h0 | h0 <;>
      rw [h0] at hdm <;> omega
  · intro h
    rcases h with h | h <;> rw [← h1, h]
    · exact Nat.mod_eq_of_lt hr
    · rw [Nat.add_mod_right]
      exact Nat.mod_eq_of_lt hr

theorem div_t_of_mod_low {t : Nat} (ht : 0 < t) {j r : Nat} (hr : r < t)
    (h : j % (2 * t) = r) : j / t = 2 * (j / (2 * t)) := by
  have hdm := Nat.div_add_mod j (2 * t)
  rw [h] at hdm
  have hcalc : (r + t * (2 * (j / (2 * t)))) / t = 2 * (j / (2 * t)) := by
    rw [Nat.add_mul_div_left _ _ ht, Nat.div_eq_of_lt hr]
    omega
  have hcomm : 2 * t * (j / (2 * t)) = t * (2 * (j / (2 * t))) := by ring
  have hjeq : j = r + t * (2 * (j / (2 * t))) := by omega
  conv_lhs => rw [hjeq]
  exact hcalc

theorem div_t_of_mod_high {t : Nat} (ht : 0 < t) {j r : Nat} (hr : r < t)
    (h : j % (2 * t) = r + t) : j / t = 2 * (j / (2 * t)) + 1 := by
  have hdm := Nat.div_add_mod j (2 * t)
  rw [h] at hdm
  have hcalc : (r + t * (2 * (j / (2 * t)) + 1)) / t = 2 * (j / (2 * t)) + 1 := by
    rw [Nat.add_mul_div_left _ _ ht, Nat.div_eq_of_lt hr]
    omega
  have hcomm : 2 * t * (j / (2 * t)) + t = t * (2 * (j / (2 * t)) + 1) := by ring
  have hjeq : j = r + t * (2 * (j / (2 * t)) + 1) := by omega
  conv_lhs => rw [hjeq]
  exact hcalc

theorem bitRev_succ_even (s i : Nat) : bitRev (s + 1) (2 * i) = bitRev s i := by
  show bitRev s (2 * i / 2) + (2 * i % 2) * 2 ^ s = bitRev s i
  rw [Nat.mul_div_cancel_left _ (by omega : 0 < 2), Nat.mul_mod_right]
  simp

theorem bitRev_succ_odd (s i : Nat) : bitRev (s + 1) (2 * i + 1) = bitRev s i + 2 ^ s := by
  show bitRev s ((2 * i + 1) / 2) + ((2 * i + 1) % 2) * 2 ^ s = bitRev s i + 2 ^ s
  have h1 : (2 * i + 1) / 2 = i := by omega
  have h2 : (2 * i + 1) % 2 = 1 := by omega
  rw [h1, h2, one_mul]

/-- The bit-reversed index of a stage's twiddle slot: reversing `k` bits of
`2^s + i` (for `i < 2^s`, `s < k`) gives `(2*bitRev s i + 1) * 2^(k-s-1)`. -/
theorem bitRev_stage_index : ∀ (s k i : Nat), s < k → i < 2 ^ s →
    bitRev k (2 ^ s + i) = (2 * bitRev s i + 1) * 2 ^ (k - s - 1) := by
  intro s
  induction s with
  | zero =>
    intro k i hk hi
    have hi0 : i = 0 := by omega
    obtain ⟨k', rfl⟩ : ∃ k', k = k' + 1 := ⟨k - 1, by omega⟩
    subst hi0
    show bitRev k' ((2 ^ 0 + 0) / 2) + ((2 ^ 0 + 0) % 2) * 2 ^ k' = _
    norm_num [bitRev_zero]
  | succ s ih =>
    intro k i hk hi
    obtain ⟨k', rfl⟩ : ∃ k', k = k' + 1 := ⟨k - 1, by omega⟩
    have hsk' : s < k' := by omega
    have hstep : bitRev (k' + 1) (2 ^ (s + 1) + i) =
        bitRev k' ((2 ^ (s + 1) + i) / 2) + ((2 ^ (s + 1) + i) % 2) * 2 ^ k' := rfl
    have hdiv : (2 ^ (s + 1) + i) / 2 = 2 ^ s + i / 2 := by
      rw [pow_succ]
      omega
    have hmod : (2 ^ (s + 1) + i) % 2 = i % 2 := by
      rw [pow_succ]
      omega
    have hihalf : i / 2 < 2 ^ s := by
      rw [pow_succ] at hi
      omega
    rw [hstep, hdiv, hmod, ih k' (i / 2) hsk' hihalf]
    have hrev : bitRev (s + 1) i = bitRev s (i / 2) + (i % 2) * 2 ^ s := rfl
    rw [hrev]
    have he1 : k' + 1 - (s + 1) - 1 = k' - s - 1 := by omega
    rw [he1]
    have he2 : (2 : Nat) ^ s * 2 ^ (k' - s - 1) = 2 ^ (k' - 1) := by
      rw [← pow_add]
      congr 1
      omega
    have he3 : (2 : Nat) * 2 ^ (k' - 1) = 2 ^ k' := by
      rw [← pow_succ']
      congr 1
      omega
    have hexpand : (2 * (bitRev s (i / 2) + i % 2 * 2 ^ s) + 1) * 2 ^ (k' - s - 1) =
        (2 * bitRev s (i / 2) + 1) * 2 ^ (k' - s - 1) +
          (i % 2) * (2 * (2 ^ s * 2 ^ (k' - s - 1))) := by
      ring
    rw [hexpand, he2, he3]

/-- Entry `x` of the staged invariant of the forward transform: block
`x / L` (at block length `L`), offset `x % L`, holds the corresponding
coefficient of the input reduced mod `x^L - ψ^((2*bitRev s (x/L) + 1)*L)`. -/
def fnttSpecEntry {q : Nat} (ψZ : ZMod q) (n s L : Nat) (aZ : List (ZMod q)) (x : Nat) :
    ZMod q :=
  ((Finset.range n).filter (fun j => j % L = x % L)).sum
    (fun j => aZ.getD j 0 * ψZ ^ ((2 * bitRev s (x / L) + 1) * L * (j / L)))

/-- The whole working array at stage `s` of the forward transform. -/
def fnttSpecList {q : Nat} (ψZ : ZMod q) (n s L : Nat) (aZ : List (ZMod q)) :
    List (ZMod q) :=
  (List.range n).map (fnttSpecEntry ψZ n s L aZ)

theorem fnttSpecList_length {q : Nat} (ψZ : ZMod q) (n s L : Nat) (aZ : List (ZMod q)) :
    (fnttSpecList ψZ n s L aZ).length = n := by
  simp [fnttSpecList]

theorem fnttSpecList_getD {q : Nat} (ψZ : ZMod q) (n s L : Nat) (aZ : List (ZMod q))
    (x : Nat) (hx : x < n) :
    (fnttSpecList ψZ n s L aZ).getD x 0 = fnttSpecEntry ψZ n s L aZ x := by
  rw [fnttSpecList, getD_map_of_lt _ _ (by simpa using hx) 0]
  congr 1
  rw [List.getD_eq_getElem _ _ (by simpa using hx), List.getElem_range]

/-- At stage 0 (one block of length `n`) the invariant is the input itself. -/
theorem fnttSpecList_zero {q : Nat} (ψZ : ZMod q) {n : Nat} (aZ : List (ZMod q))
    (hlen : aZ.length = n) : fnttSpecList ψZ n 0 n aZ = aZ := by
  apply list_ext_getD (0 : ZMod q)
  · rw [fnttSpecList_length, hlen]
  · intro x hx
    have hxn : x < n := by rwa [fnttSpecList_length] at hx
    rw [fnttSpecList_getD _ _ _ _ _ _ hxn, fnttSpecEntry]
    have hfilter : (Finset.range n).filter (fun j => j % n = x % n) = {x} := by
      apply Finset.ext
      intro j
      simp only [Finset.mem_filter, Finset.mem_range, Finset.mem_singleton]
      constructor
      · rintro ⟨hj, hmod⟩
        rwa [Nat.mod_eq_of_lt hj, Nat.mod_eq_of_lt hxn] at hmod
      · rintro rfl
        exact ⟨hxn, rfl⟩
    rw [hfilter, Finset.sum_singleton, Nat.div_eq_of_lt hxn]
    simp

/-- At the last stage (`L = 1`, `s = k`) the invariant is the evaluation of
the input polynomial at `ψ^(2*bitRev k x + 1)`. -/
theorem fnttSpecEntry_final {q : Nat} (ψZ : ZMod q) (n k : Nat) (aZ : List (ZMod q))
    (x : Nat) :
    fnttSpecEntry ψZ n k 1 aZ x =
      (Finset.range n).sum
        (fun j => aZ.getD j 0 * (ψZ ^ (2 * bitRev k (x / 1) + 1)) ^ j) := by
  rw [fnttSpecEntry]
  have hfilter : (Finset.range n).filter (fun j => j % 1 = x % 1) = Finset.range n := by
    apply Finset.filter_true_of_mem
    intro j _
    simp [Nat.mod_one]
  rw [hfilter]
  apply Finset.sum_congr rfl
  intro j _
  rw [← pow_mul]
  congr 2
  simp only [Nat.div_one]
  ring

/-- One Cooley–Tukey stage advances the staged invariant: stage `s` (with
`2^s` groups, half-block `t = 2^(k-s-1)`, twiddles `T[2^s + i]`) splits each
block of length `2t` (modulo `x^{2t} - S²`) into its two children modulo
`x^t - S` and `x^t + S`. -/
theorem fnttSpec_step {q : Nat} (ψZ : ZMod q) {n k s t : Nat} (T : List (ZMod q))
    (hn : n = 2 ^ k) (hs : s < k) (ht : t = 2 ^ (k - s - 1))
    (aZ : List (ZMod q)) (hψn : ψZ ^ n = -1)
    (hT : ∀ i, i < 2 ^ s → T.getD (2 ^ s + i) 0 = ψZ ^ ((2 * bitRev s i + 1) * t)) :
    zStage T zbfCT (2 ^ s) t 0 (2 ^ s) (fnttSpecList ψZ n s (2 * t) aZ) =
      fnttSpecList ψZ n (s + 1) t aZ := by
  have ht0 : 0 < t := by
    rw [ht]
    exact Nat.pos_pow_of_pos _ (by omega)
  have hnst : 2 ^ (s + 1) * t = n := by
    rw [ht, hn, ← pow_add]
    congr 1
    omega
  have hmt : 2 * 2 ^ s * t = n := by
    rw [← hnst, pow_succ]
    ring
  obtain ⟨sU, sW⟩ := zStage_getD T zbfCT (2 ^ s) t ht0 (2 ^ s) 0
    (fnttSpecList ψZ n s (2 * t) aZ)
    (by rw [fnttSpecList_length, show 2 * (0 + 2 ^ s) * t = 2 * 2 ^ s * t by ring]; omega)
  apply list_ext_getD (0 : ZMod q)
  · rw [zStage_length, fnttSpecList_length, fnttSpecList_length]
  · intro p hp
    have hpn : p < n := by rwa [zStage_length, fnttSpecList_length] at hp
    obtain ⟨i, r', hir, hr'lt, hilt⟩ :
        ∃ i r', p = 2 * i * t + r' ∧ r' < 2 * t ∧ i < 2 ^ s := by
      refine ⟨p / (2 * t), p % (2 * t), ?_, Nat.mod_lt p (by omega), ?_⟩
      · have hdm : 2 * t * (p / (2 * t)) + p % (2 * t) = p := Nat.div_add_mod p (2 * t)
        have hc : 2 * t * (p / (2 * t)) = 2 * (p / (2 * t)) * t := by ring
        omega
      · refine Nat.div_lt_of_lt_mul ?_
        have hc : 2 * t * 2 ^ s = 2 * 2 ^ s * t := by ring
        omega
    subst hir
    have hgrp : 2 * (i + 1) * t ≤ 2 * 2 ^ s * t := Nat.mul_le_mul_right t (by omega)
    have hgrpe : 2 * (i + 1) * t = 2 * i * t + 2 * t := by ring
    have hxm : ∀ r, r < 2 * t → (2 * i * t + r) % (2 * t) = r := by
      intro r hr
      rw [show 2 * i * t + r = r + 2 * t * i by ring, Nat.add_mul_mod_self_left,
        Nat.mod_eq_of_lt hr]
    have hxd : ∀ r, r < 2 * t → (2 * i * t + r) / (2 * t) = i := by
      intro r hr
      rw [show 2 * i * t + r = r + 2 * t * i by ring,
        Nat.add_mul_div_left _ _ (by omega : 0 < 2 * t), Nat.div_eq_of_lt hr]
      omega
    by_cases hcase : r' < t
    · -- even child: position 2it + r', value in[p] + in[p+t]·S
      rw [(sW i r' (by omega) (by omega) hcase).1]
      have hplo : 2 * i * t + r' < n := by omega
      have hphi : 2 * i * t + r' + t < n := by omega
      rw [fnttSpecList_getD _ _ _ _ _ _ hplo, fnttSpecList_getD _ _ _ _ _ _ hphi,
        fnttSpecList_getD _ _ _ _ _ _ hplo, hT i hilt]
      simp only [zbfCT]
      rw [fnttSpecEntry, fnttSpecEntry, fnttSpecEntry]
      have hm1 : (2 * i * t + r') % (2 * t) = r' := hxm r' (by omega)
      have hd1 : (2 * i * t + r') / (2 * t) = i := hxd r' (by omega)
      have he2 : 2 * i * t + r' + t = 2 * i * t + (r' + t) := by ring
      have hm2 : (2 * i * t + r' + t) % (2 * t) = r' + t := by
        rw [he2]
        exact hxm _ (by omega)
      have hd2 : (2 * i * t + r' + t) / (2 * t) = i := by
        rw [he2]
        exact hxd _ (by omega)
      have hmt1 : (2 * i * t + r') % t = r' := by
        have hmm : (2 * i * t + r') % (2 * t) % t = (2 * i * t + r') % t :=
          Nat.mod_mod_of_dvd _ ⟨2, by ring⟩
        rw [hm1, Nat.mod_eq_of_lt hcase] at hmm
        omega
      have hdt1 : (2 * i * t + r') / t = 2 * i := by
        rw [div_t_of_mod_low ht0 hcase hm1, hd1]
      rw [hm1, hd1, hm2, hd2, hmt1, hdt1, bitRev_succ_even]
      have hsplitset : (Finset.range n).filter (fun j => j % t = r') =
          ((Finset.range n).filter (fun j => j % (2 * t) = r')) ∪
            ((Finset.range n).filter (fun j => j % (2 * t) = r' + t)) := by
        rw [← Finset.filter_or]
        exact Finset.filter_congr fun j _ => mod_two_mul_split ht0 j r' hcase
      have hdisj : Disjoint ((Finset.range n).filter (fun j => j % (2 * t) = r'))
          ((Finset.range n).filter (fun j => j % (2 * t) = r' + t)) := by
        rw [Finset.disjoint_left]
        intro j hj1 hj2
        simp only [Finset.mem_filter] at hj1 hj2
        omega
      rw [hsplitset, Finset.sum_union hdisj]
      congr 1
      · apply Finset.sum_congr rfl
        intro j hj
        rw [div_t_of_mod_low ht0 hcase (Finset.mem_filter.mp hj).2]
        congr 2
        ring
      · rw [Finset.sum_mul]
        apply Finset.sum_congr rfl
        intro j hj
        rw [div_t_of_mod_high ht0 hcase (Finset.mem_filter.mp hj).2,
          show (2 * bitRev s i + 1) * t * (2 * (j / (2 * t)) + 1) =
            (2 * bitRev s i + 1) * (2 * t) * (j / (2 * t)) + (2 * bitRev s i + 1) * t
            by ring,
          pow_add, mul_assoc]
    · -- odd child: position 2it + r + t, value in[p-t] - in[p]·S
      obtain ⟨r, rfl⟩ : ∃ r, r' = r + t := ⟨r' - t, by omega⟩
      have hrlt : r < t := by omega
      have hpe : 2 * i * t + (r + t) = 2 * i * t + r + t := by ring
      rw [hpe, (sW i r (by omega) (by omega) hrlt).2]
      have hplo : 2 * i * t + r < n := by omega
      have hphi : 2 * i * t + r + t < n := by omega
      rw [fnttSpecList_getD _ _ _ _ _ _ hplo, fnttSpecList_getD _ _ _ _ _ _ hphi,
        fnttSpecList_getD _ _ _ _ _ _ hphi, hT i hilt]
      simp only [zbfCT]
      rw [fnttSpecEntry, fnttSpecEntry, fnttSpecEntry]
      have hm1 : (2 * i * t + r) % (2 * t) = r := hxm r (by omega)
      have hd1 : (2 * i * t + r) / (2 * t) = i := hxd r (by omega)
      have he2 : 2 * i * t + r + t = 2 * i * t + (r + t) := by ring
      have hm2 : (2 * i * t + r + t) % (2 * t) = r + t := by
        rw [he2]
        exact hxm _ (by omega)
      have hd2 : (2 * i * t + r + t) / (2 * t) = i := by
        rw [he2]
        exact hxd _ (by omega)
      have hmt2 : (2 * i * t + r + t) % t = r := by
        have hmm : (2 * i * t + r + t) % (2 * t) % t = (2 * i * t + r + t) % t :=
          Nat.mod_mod_of_dvd _ ⟨2, by ring⟩
        rw [hm2, Nat.add_mod_right, Nat.mod_eq_of_lt hrlt] at hmm
        omega
      have hdt2 : (2 * i * t + r + t) / t = 2 * i + 1 := by
        rw [div_t_of_mod_high ht0 hrlt hm2, hd2]
      rw [hm1, hd1, hm2, hd2, hmt2, hdt2, bitRev_succ_odd]
      have hsplitset : (Finset.range n).filter (fun j => j % t = r) =
          ((Finset.range n).filter (fun j => j % (2 * t) = r)) ∪
            ((Finset.range n).filter (fun j => j % (2 * t) = r + t)) := by
        rw [← Finset.filter_or]
        exact Finset.filter_congr fun j _ => mod_two_mul_split ht0 j r hrlt
      have hdisj : Disjoint ((Finset.range n).filter (fun j => j % (2 * t) = r))
          ((Finset.range n).filter (fun j => j % (2 * t) = r + t)) := by
        rw [Finset.disjoint_left]
        intro j hj1 hj2
        simp only [Finset.mem_filter] at hj1 hj2
        omega
      rw [hsplitset, Finset.sum_union hdisj]
      have hlow : (((Finset.range n).filter (fun j => j % (2 * t) = r)).sum
          (fun j => aZ.getD j 0 *
            ψZ ^ ((2 * (bitRev s i + 2 ^ s) + 1) * t * (j / t)))) =
          (((Finset.range n).filter (fun j => j % (2 * t) = r)).sum
            (fun j => aZ.getD j 0 *
              ψZ ^ ((2 * bitRev s i + 1) * (2 * t) * (j / (2 * t))))) := by
        apply Finset.sum_congr rfl
        intro j hj
        rw [div_t_of_mod_low ht0 hrlt (Finset.mem_filter.mp hj).2,
          show (2 * (bitRev s i + 2 ^ s) + 1) * t * (2 * (j / (2 * t))) =
            (2 * bitRev s i + 1) * (2 * t) * (j / (2 * t)) +
              2 * 2 ^ s * t * (2 * (j / (2 * t))) by ring,
          pow_add]
        have hB : ψZ ^ (2 * 2 ^ s * t * (2 * (j / (2 * t)))) = 1 := by
          rw [show 2 * 2 ^ s * t * (2 * (j / (2 * t))) = n * (2 * (j / (2 * t))) by
              rw [← hmt],
            pow_mul, hψn, Even.neg_one_pow ⟨j / (2 * t), by ring⟩]
        rw [hB, mul_one]
      have hhigh : (((Finset.range n).filter (fun j => j % (2 * t) = r + t)).sum
          (fun j => aZ.getD j 0 *
            ψZ ^ ((2 * (bitRev s i + 2 ^ s) + 1) * t * (j / t)))) =
          -((((Finset.range n).filter (fun j => j % (2 * t) = r + t)).sum
            (fun j => aZ.getD j 0 *
              ψZ ^ ((2 * bitRev s i + 1) * (2 * t) * (j / (2 * t))))) *
            ψZ ^ ((2 * bitRev s i + 1) * t)) := by
        rw [Finset.sum_mul, ← Finset.sum_neg_distrib]
        apply Finset.sum_congr rfl
        intro j hj
        rw [div_t_of_mod_high ht0 hrlt (Finset.mem_filter.mp hj).2,
          show (2 * (bitRev s i + 2 ^ s) + 1) * t * (2 * (j / (2 * t)) + 1) =
            ((2 * bitRev s i + 1) * (2 * t) * (j / (2 * t)) +
              (2 * bitRev s i + 1) * t) +
              2 * 2 ^ s * t * (2 * (j / (2 * t)) + 1) by ring,
          pow_add]
        have hB : ψZ ^ (2 * 2 ^ s * t * (2 * (j / (2 * t)) + 1)) = -1 := by
          rw [show 2 * 2 ^ s * t * (2 * (j / (2 * t)) + 1) =
              n * (2 * (j / (2 * t)) + 1) by rw [← hmt],
            pow_mul, hψn, Odd.neg_one_pow ⟨j / (2 * t), by ring⟩]
        rw [hB, pow_add]
        ring
      rw [hlow, hhigh]
      ring

/-- Propagating the staged invariant through the remaining stages of the
forward loop. -/
theorem zFnttLoop_spec {q : Nat} (ψZ : ZMod q) (k : Nat) (T : List (ZMod q))
    (hψn : ψZ ^ 2 ^ k = -1)
    (hT : ∀ p, p < 2 ^ k → T.getD p 0 = ψZ ^ bitRev k p) :
    ∀ (d s : Nat), s + d = k → ∀ fuel, d ≤ fuel → ∀ aZ : List (ZMod q),
      zFnttLoop T (2 ^ k) fuel (2 ^ s) (2 ^ (k - s))
          (fnttSpecList ψZ (2 ^ k) s (2 ^ (k - s)) aZ) =
        fnttSpecList ψZ (2 ^ k) k 1 aZ := by
  intro d
  induction d with
  | zero =>
    intro s hs fuel hfuel aZ
    have hsk : s = k := by omega
    subst hsk
    have hstop : ∀ X : List (ZMod q), zFnttLoop T (2 ^ s) fuel (2 ^ s) (2 ^ (s - s)) X = X := by
      intro X
      rcases fuel with _ | fuel
      · rfl
      · simp [zFnttLoop]
    rw [hstop, Nat.sub_self, pow_zero]
  | succ d ih =>
    intro s hs fuel hfuel aZ
    have hsk : s < k := by omega
    obtain ⟨fuel', rfl⟩ : ∃ fuel', fuel = fuel' + 1 := ⟨fuel - 1, by omega⟩
    have hmlt : (2 : Nat) ^ s < 2 ^ k := Nat.pow_lt_pow_right (by omega) hsk
    have hks : k - s = (k - (s + 1)) + 1 := by omega
    have htdiv : (2 : Nat) ^ (k - s) / 2 = 2 ^ (k - (s + 1)) := by
      rw [hks, pow_succ, Nat.mul_div_cancel _ (by omega)]
    have hL : (2 : Nat) ^ (k - s) = 2 * 2 ^ (k - (s + 1)) := by
      rw [hks, pow_succ]
      ring
    have hstep : zFnttLoop T (2 ^ k) (fuel' + 1) (2 ^ s) (2 ^ (k - s))
        (fnttSpecList ψZ (2 ^ k) s (2 ^ (k - s)) aZ) =
          zFnttLoop T (2 ^ k) fuel' (2 ^ (s + 1)) (2 ^ (k - (s + 1)))
            (zStage T zbfCT (2 ^ s) (2 ^ (k - (s + 1))) 0 (2 ^ s)
              (fnttSpecList ψZ (2 ^ k) s (2 ^ (k - s)) aZ)) := by
      simp only [zFnttLoop, if_pos hmlt, htdiv]
      congr 1
      rw [pow_succ]
      ring
    rw [hstep]
    have hTstage : ∀ i, i < 2 ^ s →
        T.getD (2 ^ s + i) 0 = ψZ ^ ((2 * bitRev s i + 1) * 2 ^ (k - s - 1)) := by
      intro i hi
      have hlt : 2 ^ s + i < 2 ^ k := by
        have h1 : (2 : Nat) ^ s + i < 2 ^ (s + 1) := by
          rw [pow_succ]
          omega
        have h2 : (2 : Nat) ^ (s + 1) ≤ 2 ^ k := Nat.pow_le_pow_right (by omega) (by omega)
        omega
      rw [hT _ hlt, bitRev_stage_index s k i hsk hi]
    have hstage : zStage T zbfCT (2 ^ s) (2 ^ (k - (s + 1))) 0 (2 ^ s)
        (fnttSpecList ψZ (2 ^ k) s (2 ^ (k - s)) aZ) =
          fnttSpecList ψZ (2 ^ k) (s + 1) (2 ^ (k - (s + 1))) aZ := by
      rw [show fnttSpecList ψZ (2 ^ k) s (2 ^ (k - s)) aZ =
          fnttSpecList ψZ (2 ^ k) s (2 * 2 ^ (k - (s + 1))) aZ from by rw [← hL]]
      exact fnttSpec_step ψZ T rfl hsk (by rw [show k - s - 1 = k - (s + 1) by omega]) aZ
        hψn (by simpa [show k - s - 1 = k - (s + 1) by omega] using hTstage)
    rw [hstage]
    exact ih (s + 1) (by omega) fuel' (by omega) aZ

/-- Closed form of the forward transform: output `x` is the evaluation of the
input polynomial at `ψ^(2*bitRev k x + 1)`. -/
theorem zFnttLoop_closed_form {q : Nat} (ψZ : ZMod q) (k : Nat) (T : List (ZMod q))
    (hψn : ψZ ^ 2 ^ k = -1)
    (hT : ∀ p, p < 2 ^ k → T.getD p 0 = ψZ ^ bitRev k p)
    (aZ : List (ZMod q)) (hlen : aZ.length = 2 ^ k) (fuel : Nat) (hfuel : k ≤ fuel) :
    zFnttLoop T (2 ^ k) fuel (2 ^ 0) (2 ^ (k - 0)) aZ =
      fnttSpecList ψZ (2 ^ k) k 1 aZ := by
  have h0 := zFnttLoop_spec ψZ k T hψn hT k 0 (by omega) fuel (by omega) aZ
  rwa [Nat.sub_zero, fnttSpecList_zero ψZ aZ hlen] at h0

/-- Modelled from the spec (§8, "Convolution theorem"): the negative-wrapped
(negacyclic) convolution of `A` and `B` computed directly by `O(n²)` modular
arithmetic — entry `i` is `∑_{j+l=i} A_j·B_l − ∑_{j+l=i+n} A_j·B_l (mod q)`.
This reference computation is what the claim compares the NTT pipeline
against; ntt.py itself contains no such function. -/
def negacyclic_conv_spec (q : Nat) (A B : List Int) : List Int :=
  (List.range A.length).map (fun i =>
    ((Finset.range A.length).sum (fun j => (Finset.range A.length).sum (fun l =>
      if j + l = i then A.getD j 0 * B.getD l 0
      else if j + l = i + A.length then -(A.getD j 0 * B.getD l 0) else 0))) %
      (q : Int))

theorem negacyclic_conv_spec_length (q : Nat) (A B : List Int) :
    (negacyclic_conv_spec q A B).length = A.length := by
  simp [negacyclic_conv_spec]

theorem negacyclic_conv_spec_getD (q : Nat) (A B : List Int) (i : Nat)
    (hi : i < A.length) :
    (negacyclic_conv_spec q A B).getD i 0 =
      ((Finset.range A.length).sum (fun j => (Finset.range A.length).sum (fun l =>
        if j + l = i then A.getD j 0 * B.getD l 0
        else if j + l = i + A.length then -(A.getD j 0 * B.getD l 0) else 0))) %
        (q : Int) := by
  rw [negacyclic_conv_spec, getD_map_of_lt _ _ (by simpa using hi) 0]
  congr 2
  all_goals rw [List.getD_eq_getElem _ _ (by simpa using hi), List.getElem_range]

theorem negacyclic_conv_spec_range {q : Nat} (hq : 0 < q) (A B : List Int) :
    ∀ x ∈ negacyclic_conv_spec q A B, 0 ≤ x ∧ x < q := by
  intro x hx
  obtain ⟨i, _, rfl⟩ := List.mem_map.mp hx
  constructor
  · exact Int.emod_nonneg _ (by exact_mod_cast (by omega : q ≠ 0))
  · exact Int.emod_lt_of_pos _ (by exact_mod_cast hq)

theorem negacyclic_conv_spec_cast (q : Nat) (A B : List Int) (i : Nat)
    (hi : i < A.length) :
    (((negacyclic_conv_spec q A B).getD i 0 : Int) : ZMod q) =
      (Finset.range A.length).sum (fun j => (Finset.range A.length).sum (fun l =>
        if j + l = i then
          ((A.getD j 0 : Int) : ZMod q) * ((B.getD l 0 : Int) : ZMod q)
        else if j + l = i + A.length then
          -(((A.getD j 0 : Int) : ZMod q) * ((B.getD l 0 : Int) : ZMod q))
        else 0)) := by
  rw [negacyclic_conv_spec_getD q A B i hi, ZMod.intCast_mod, Int.cast_sum]
  apply Finset.sum_congr rfl
  intro j _
  rw [Int.cast_sum]
  apply Finset.sum_congr rfl
  intro l _
  split_ifs <;> push_cast <;> ring

/-- Evaluating the negacyclic convolution at a point `w` with `w^n = -1`
multiplies the evaluations of the factors. -/
theorem negacyclic_eval {q : Nat} (n : Nat) (f g : Nat → ZMod q) (w : ZMod q)
    (hw : w ^ n = -1) :
    (Finset.range n).sum (fun i =>
      ((Finset.range n).sum (fun j => (Finset.range n).sum (fun l =>
        if j + l = i then f j * g l
        else if j + l = i + n then -(f j * g l) else 0))) * w ^ i) =
      ((Finset.range n).sum (fun j => f j * w ^ j)) *
        ((Finset.range n).sum (fun l => g l * w ^ l)) := by
  have key : ∀ j ∈ Finset.range n, ∀ l ∈ Finset.range n,
      (Finset.range n).sum (fun i =>
        (if j + l = i then f j * g l
         else if j + l = i + n then -(f j * g l) else 0) * w ^ i) =
        (f j * w ^ j) * (g l * w ^ l) := by
    intro j hj l hl
    have hjn : j < n := Finset.mem_range.mp hj
    have hln : l < n := Finset.mem_range.mp hl
    by_cases hjl : j + l < n
    · rw [Finset.sum_eq_single (j + l)]
      · rw [if_pos rfl, pow_add]
        ring
      · intro i hi hne
        rw [if_neg (fun h => hne h.symm), if_neg (by
          intro h
          have := Finset.mem_range.mp hi
          omega)]
        ring
      · intro h
        exact absurd (Finset.mem_range.mpr hjl) h
    · rw [Finset.sum_eq_single (j + l - n)]
      · rw [if_neg (by omega), if_pos (by omega)]
        have hsplit : w ^ j * w ^ l = w ^ (j + l - n) * w ^ n := by
          rw [← pow_add, ← pow_add]
          congr 1
          omega
        rw [show f j * w ^ j * (g l * w ^ l) = f j * g l * (w ^ j * w ^ l) by ring,
          hsplit, hw]
        ring
      · intro i hi hne
        have hi' := Finset.mem_range.mp hi
        rw [if_neg (by omega), if_neg (by
          intro h
          exact hne (by omega))]
        ring
      · intro h
        exact absurd (Finset.mem_range.mpr (by omega)) h
  calc (Finset.range n).sum (fun i =>
        ((Finset.range n).sum (fun j => (Finset.range n).sum (fun l =>
          if j + l = i then f j * g l
          else if j + l = i + n then -(f j * g l) else 0))) * w ^ i)
      = (Finset.range n).sum (fun i => (Finset.range n).sum (fun j =>
          (Finset.range n).sum (fun l =>
            (if j + l = i then f j * g l
             else if j + l = i + n then -(f j * g l) else 0) * w ^ i))) := by
        apply Finset.sum_congr rfl
        intro i _
        rw [Finset.sum_mul]
        apply Finset.sum_congr rfl
        intro j _
        rw [Finset.sum_mul]
    _ = (Finset.range n).sum (fun j => (Finset.range n).sum (fun i =>
          (Finset.range n).sum (fun l =>
            (if j + l = i then f j * g l
             else if j + l = i + n then -(f j * g l) else 0) * w ^ i))) :=
        Finset.sum_comm
    _ = (Finset.range n).sum (fun j => (Finset.range n).sum (fun l =>
          (Finset.range n).sum (fun i =>
            (if j + l = i then f j * g l
             else if j + l = i + n then -(f j * g l) else 0) * w ^ i))) := by
        apply Finset.sum_congr rfl
        intro j _
        exact Finset.sum_comm
    _ = (Finset.range n).sum (fun j => (Finset.range n).sum (fun l =>
          (f j * w ^ j) * (g l * w ^ l))) := by
        apply Finset.sum_congr rfl
        intro j hj
        apply Finset.sum_congr rfl
        intro l hl
        exact key j hj l hl
    _ = ((Finset.range n).sum (fun j => f j * w ^ j)) *
          ((Finset.range n).sum (fun l => g l * w ^ l)) := by
        rw [Finset.sum_mul_sum]

theorem getD_zipWith_mul {q : Nat} :
    ∀ (X Y : List (ZMod q)) (p : Nat), p < X.length → p < Y.length →
      (List.zipWith (fun a b => a * b) X Y).getD p 0 = X.getD p 0 * Y.getD p 0 := by
  intro X
  induction X with
  | nil => intro Y p hp _; simp at hp
  | cons x X ih =>
    intro Y p hp hq'
    cases Y with
    | nil => simp at hq'
    | cons y Y =>
      rcases p with _ | p
      · rfl
      · show (List.zipWith _ X Y).getD p 0 = _
        exact ih Y p (by simpa using hp) (by simpa using hq')

theorem pointwise_mult_cast (q : Nat) :
    ∀ (X Y : List Int),
      (pointwise_mult q X Y).map (fun x : Int => (x : ZMod q)) =
        List.zipWith (fun a b => a * b) (X.map (fun x : Int => (x : ZMod q)))
          (Y.map (fun x : Int => (x : ZMod q))) := by
  intro X
  induction X with
  | nil => intro Y; rfl
  | cons x X ih =>
    intro Y
    cases Y with
    | nil => rfl
    | cons y Y =>
      have hh : (((x * y) % (q : Int) : Int) : ZMod q) = (x : ZMod q) * (y : ZMod q) := by
        rw [ZMod.intCast_mod]
        push_cast
        ring
      have ih' := ih Y
      simp only [pointwise_mult] at ih' ⊢
      simp only [List.zipWith_cons_cons, List.map_cons]
      rw [hh, ih']

/-- Converse of `orderOf_eq_of_pow_eq_neg_one`: an element of order `2^(k+1)`
in `ZMod q` (`q` prime) has `2^k`-th power `-1`. -/
theorem pow_eq_neg_one_of_orderOf {q k : Nat} (hq : Nat.Prime q) (ψZ : ZMod q)
    (hord : orderOf ψZ = 2 * 2 ^ k) : ψZ ^ 2 ^ k = -1 := by
  haveI := Fact.mk hq
  have hx2 : ψZ ^ 2 ^ k * ψZ ^ 2 ^ k = 1 := by
    rw [← pow_add, show 2 ^ k + 2 ^ k = 2 * 2 ^ k by ring, ← hord, pow_orderOf_eq_one]
  have hx1 : ψZ ^ 2 ^ k ≠ 1 := by
    intro h1
    have hdvd : orderOf ψZ ∣ 2 ^ k := orderOf_dvd_of_pow_eq_one h1
    rw [hord] at hdvd
    have hle := Nat.le_of_dvd (Nat.pos_pow_of_pos _ (by omega)) hdvd
    have h2k : 0 < 2 ^ k := Nat.pos_pow_of_pos _ (by omega)
    omega
  rcases mul_self_eq_one_iff.mp hx2 with h | h
  · exact absurd h hx1
  · exact h

/-- C2: convolution theorem.  With the same parameters and tables as the
round trip, `speedup_INTT` applied to the pointwise mod-`q` product of
`speedup_FNTT a` and `speedup_FNTT b` returns exactly the negative-wrapped
convolution of `a` and `b` computed directly by `O(n²)` modular arithmetic
(`negacyclic_conv_spec`); in particular this holds at `n ∈ {4, 8, 16}` with
small primes `q ≡ 1 (mod 2n)`, as in the witness below. -/
theorem ntt_convolution (k q ψ ψinv : Nat) (Tf Ti a b : List Int)
    (hq : Nat.Prime q) (hmod : q % (2 * 2 ^ k) = 1)
    (hord : orderOf ((ψ : Nat) : ZMod q) = 2 * 2 ^ k)
    (hinv : (ψ * ψinv) % q = 1)
    (hTf : bit_reverse_order (powTable ψ q (2 ^ k)) = some Tf)
    (hTi : bit_reverse_order (powTable ψinv q (2 ^ k)) = some Ti)
    (halen : a.length = 2 ^ k) (hblen : b.length = 2 ^ k)
    (harange : ∀ x ∈ a, 0 ≤ x ∧ x < q) (hbrange : ∀ x ∈ b, 0 ≤ x ∧ x < q) :
    speedup_INTT (pointwise_mult q (speedup_FNTT a q Tf) (speedup_FNTT b q Tf)) q Ti =
      some (negacyclic_conv_spec q a b) := by
  have hq21 := q_ge_two_n_succ hq hmod
  have h2k1 : 1 ≤ (2 : Nat) ^ k := Nat.one_le_two_pow
  have hψn : ((ψ : Nat) : ZMod q) ^ 2 ^ k = -1 := pow_eq_neg_one_of_orderOf hq _ hord
  obtain ⟨hTfLen, hTfGet⟩ := revTable_cast_getD hTf
  have hTfZ : ∀ p, p < 2 ^ k →
      (Tf.map (fun x : Int => (x : ZMod q))).getD p 0 = ((ψ : Nat) : ZMod q) ^ bitRev k p := by
    intro p hp
    rw [getD_intCast_map, hTfGet p hp]
  have hFa : (speedup_FNTT a q Tf).length = 2 ^ k := by rw [speedup_FNTT_length, halen]
  have hFb : (speedup_FNTT b q Tf).length = 2 ^ k := by rw [speedup_FNTT_length, hblen]
  have hPlen : (pointwise_mult q (speedup_FNTT a q Tf) (speedup_FNTT b q Tf)).length =
      2 ^ k := by
    rw [pointwise_mult, List.length_zipWith, hFa, hFb, Nat.min_self]
  have hMlen : (negacyclic_conv_spec q a b).length = 2 ^ k := by
    rw [negacyclic_conv_spec_length, halen]
  apply speedup_INTT_recovers (Tf.map (fun x : Int => (x : ZMod q))) hq hq21
    (tables_inverse hinv hTf hTi) hPlen hMlen (negacyclic_conv_spec_range (by omega) a b)
  rw [pointwise_mult_cast]
  have hcastFa : (speedup_FNTT a q Tf).map (fun x : Int => (x : ZMod q)) =
      zFnttLoop (Tf.map (fun x : Int => (x : ZMod q))) (2 ^ k) (2 ^ k) (2 ^ 0)
        (2 ^ (k - 0)) (a.map (fun x : Int => (x : ZMod q))) := by
    show (fnttLoop q Tf a.length a.length 1 a.length a).map _ = _
    rw [fnttLoop_cast, halen]
    norm_num
  have hcastFb : (speedup_FNTT b q Tf).map (fun x : Int => (x : ZMod q)) =
      zFnttLoop (Tf.map (fun x : Int => (x : ZMod q))) (2 ^ k) (2 ^ k) (2 ^ 0)
        (2 ^ (k - 0)) (b.map (fun x : Int => (x : ZMod q))) := by
    show (fnttLoop q Tf b.length b.length 1 b.length b).map _ = _
    rw [fnttLoop_cast, hblen]
    norm_num
  rw [hcastFa, hcastFb,
    zFnttLoop_closed_form ((ψ : Nat) : ZMod q) k _ hψn hTfZ
      (a.map (fun x : Int => (x : ZMod q))) (by rw [List.length_map, halen]) (2 ^ k)
      (le_of_lt (Nat.lt_two_pow k)),
    zFnttLoop_closed_form ((ψ : Nat) : ZMod q) k _ hψn hTfZ
      (b.map (fun x : Int => (x : ZMod q))) (by rw [List.length_map, hblen]) (2 ^ k)
      (le_of_lt (Nat.lt_two_pow k)),
    zFnttLoop_closed_form ((ψ : Nat) : ZMod q) k _ hψn hTfZ
      ((negacyclic_conv_spec q a b).map (fun x : Int => (x : ZMod q)))
      (by rw [List.length_map, hMlen]) (2 ^ k) (le_of_lt (Nat.lt_two_pow k))]
  have hconv : ∀ i, i < 2 ^ k →
      ((negacyclic_conv_spec q a b).map (fun x : Int => (x : ZMod q))).getD i 0 =
        (Finset.range (2 ^ k)).sum (fun j => (Finset.range (2 ^ k)).sum (fun l =>
          if j + l = i then
            (a.map (fun x : Int => (x : ZMod q))).getD j 0 *
              (b.map (fun x : Int => (x : ZMod q))).getD l 0
          else if j + l = i + 2 ^ k then
            -((a.map (fun x : Int => (x : ZMod q))).getD j 0 *
              (b.map (fun x : Int => (x : ZMod q))).getD l 0)
          else 0)) := by
    intro i hi
    rw [getD_intCast_map, negacyclic_conv_spec_cast q a b i (by omega)]
    simp only [halen]
    apply Finset.sum_congr rfl
    intro j _
    apply Finset.sum_congr rfl
    intro l _
    rw [getD_intCast_map, getD_intCast_map]
  apply list_ext_getD (0 : ZMod q)
  · rw [List.length_zipWith, fnttSpecList_length, fnttSpecList_length,
      fnttSpecList_length, Nat.min_self]
  · intro x hx
    have hxn : x < 2 ^ k := by
      rwa [List.length_zipWith, fnttSpecList_length, fnttSpecList_length,
        Nat.min_self] at hx
    rw [getD_zipWith_mul _ _ x (by rw [fnttSpecList_length]; omega)
        (by rw [fnttSpecList_length]; omega),
      fnttSpecList_getD _ _ _ _ _ _ hxn, fnttSpecList_getD _ _ _ _ _ _ hxn,
      fnttSpecList_getD _ _ _ _ _ _ hxn,
      fnttSpecEntry_final, fnttSpecEntry_final, fnttSpecEntry_final]
    have hw : (((ψ : Nat) : ZMod q) ^ (2 * bitRev k (x / 1) + 1)) ^ 2 ^ k = -1 := by
      rw [← pow_mul,
        show (2 * bitRev k (x / 1) + 1) * 2 ^ k = 2 ^ k * (2 * bitRev k (x / 1) + 1)
          by ring,
        pow_mul, hψn, Odd.neg_one_pow ⟨bitRev k (x / 1), rfl⟩]
    rw [← negacyclic_eval (2 ^ k) (fun j => (a.map (fun x : Int => (x : ZMod q))).getD j 0)
      (fun l => (b.map (fun x : Int => (x : ZMod q))).getD l 0) _ hw]
    apply Finset.sum_congr rfl
    intro i hi
    congr 1
    exact (hconv i (Finset.mem_range.mp hi)).symm

/-- C2 witness: `n = 4`, `q = 17`, `ψ = 9`, `a = b = [1, 2, 3, 4]` — the NTT
pipeline (forward, pointwise multiply, inverse) produces exactly the direct
negacyclic convolution. -/
theorem ntt_convolution_witness :
    speedup_INTT (pointwise_mult 17 (speedup_FNTT [1, 2, 3, 4] 17 [1, 13, 9, 15])
        (speedup_FNTT [1, 2, 3, 4] 17 [1, 13, 9, 15])) 17 [1, 4, 2, 8] =
      some (negacyclic_conv_spec 17 [1, 2, 3, 4] [1, 2, 3, 4]) :=
  ntt_convolution 2 17 9 2 [1, 13, 9, 15] [1, 4, 2, 8] [1, 2, 3, 4] [1, 2, 3, 4]
    (by decide) (by decide)
    (orderOf_eq_of_pow_eq_neg_one (by decide) (by decide) _ (by decide))
    (by decide) (by decide) (by decide) (by decide) (by decide) (by decide) (by decide)
